import Mathlib

/-!
Verification of the SequenceSearchFlask retrieval engine.

The development shallowly embeds the Python sources (`trie.py`,
`indexador.py`, `busca.py`) into Lean:

* text is modelled as `List Char` (`Str`); Python dicts become ordered
  association lists (insertion order is significant in Python 3 and the
  code iterates over it), Python sets become `Finset Str`;
* the compact-trie operations walk the pattern consuming at least one
  character per step, so they are written with an explicit fuel argument
  (`fuel = pattern length + 1` at the entry points) which keeps every
  definition structurally recursive and kernel-evaluable;
* floats are idealised as real numbers, so the z-score uses `Real.sqrt`.
-/

set_option maxHeartbeats 1000000

/-- Text, modelled character by character. -/
abbrev Str := List Char

/-- Shorthand to turn a string literal into `Str`. -/
def str (s : String) : Str := s.data

/-! ### Ordered association lists (Python `dict` semantics)

`procurar` is `d.get(k)`, `gravar` is `d[k] = v` (updates in place,
appends fresh keys at the end, as Python 3 dicts do), `apagar` is
`d.pop(k)`, `chaves` is `list(d.keys())`. -/

def procurar {α : Type} : List (Str × α) → Str → Option α
  | [], _ => none
  | (k, v) :: r, q => if k = q then some v else procurar r q

def gravar {α : Type} : List (Str × α) → Str → α → List (Str × α)
  | [], k, v => [(k, v)]
  | (k0, v0) :: r, k, v => if k0 = k then (k, v) :: r else (k0, v0) :: gravar r k v

def apagar {α : Type} : List (Str × α) → Str → List (Str × α)
  | [], _ => []
  | (k0, v0) :: r, k => if k0 = k then r else (k0, v0) :: apagar r k

def chaves {α : Type} (l : List (Str × α)) : List Str := l.map Prod.fst

namespace Trie

/-- A node of the compact trie (`class Node` in `trie.py`): an ordered map
from edge label to child, the set of files stored at the node, and the
terminal flag. -/
inductive No where
  | mk (filhos : List (Str × No)) (arquivos : Finset Str) (folha : Bool)

def No.filhos : No → List (Str × No)
  | .mk f _ _ => f

def No.arquivos : No → Finset Str
  | .mk _ a _ => a

def No.folha : No → Bool
  | .mk _ _ b => b

/-- The empty trie root (`Trie.__init__`). -/
def raizVazia : No := .mk [] ∅ false

/-- Length of the common initial segment of two strings
(models `tam_prefixo_comum` in `trie.py`). -/
def tamComum : Str → Str → Nat
  | a :: as, b :: bs => if a = b then tamComum as bs + 1 else 0
  | _, _ => 0

/-- A fresh terminal node holding one file (the `novo`/`no_filho_do_padrao`
allocations in `trie.py`). -/
def folhaNova (arquivo : Str) : No := .mk [] {arquivo} true

/-- First child whose edge label shares a non-empty initial segment with
the pattern: the `for chave in list(node.filhos.keys())`/`continue` scan
shared by `inserir` and `remover`. -/
def acharRamo (padrao : Str) : List (Str × No) → Option (Str × No)
  | [] => none
  | (chave, filho) :: resto =>
      if 0 < tamComum chave padrao then some (chave, filho) else acharRamo padrao resto

/-- One step of `Trie.inserir`.  The Python `while padrao` loop consumes at
least one character per iteration, so `fuel = padrao.length + 1` suffices;
the fuel-0 branch is never reached from `inserir`. -/
def inserirNo (arquivo : Str) : Nat → No → Str → No
  | 0, node, _ => node
  | _ + 1, node, [] => .mk node.filhos (insert arquivo node.arquivos) true
  | fuel + 1, node, c :: resto =>
    let padrao := c :: resto
    match acharRamo padrao node.filhos with
    | none => .mk (gravar node.filhos padrao (folhaNova arquivo)) node.arquivos node.folha
    | some (chave, filho) =>
      let comum := tamComum chave padrao
      if comum = chave.length then
        .mk (gravar node.filhos chave (inserirNo arquivo fuel filho (padrao.drop comum)))
          node.arquivos node.folha
      else
        let parteComum := chave.take comum
        let restanteChave := chave.drop comum
        let restantePadrao := padrao.drop comum
        let novoNo : No :=
          if restantePadrao = [] then .mk [(restanteChave, filho)] {arquivo} true
          else .mk [(restanteChave, filho), (restantePadrao, folhaNova arquivo)] ∅ false
        .mk (gravar (apagar node.filhos chave) parteComum novoNo) node.arquivos node.folha

/-- `Trie.inserir`. -/
def inserir (raiz : No) (padrao arquivo : Str) : No :=
  inserirNo arquivo (padrao.length + 1) raiz padrao

/-- One step of the recursive `pode_remover` helper of `Trie.remover`.
Returns the flag together with the updated node (Python mutates in
place). -/
def removerNo (arquivo : Str) : Nat → No → Str → Bool × No
  | 0, node, _ => (false, node)
  | fuel + 1, .mk filhos arquivos folha, padrao =>
    match acharRamo padrao filhos with
    | none => (false, .mk filhos arquivos folha)
    | some (chave, filho) =>
      let comum := tamComum chave padrao
      if comum < chave.length ∧ comum < padrao.length then (false, .mk filhos arquivos folha)
      else if comum = padrao.length then
        match filho with
        | .mk ffilhos farquivos ffolha =>
          let arquivosNovos := farquivos.erase arquivo
          let folhaDepois := if arquivosNovos = ∅ then false else ffolha
          if ffilhos.isEmpty && !folhaDepois then
            (true, .mk (apagar filhos chave) arquivos folha)
          else (true, .mk (gravar filhos chave (.mk ffilhos arquivosNovos folhaDepois)) arquivos folha)
      else
        match removerNo arquivo fuel filho (padrao.drop comum) with
        | (removido, .mk rfilhos rarquivos rfolha) =>
          if removido && rfilhos.isEmpty && !rfolha then
            (removido, .mk (apagar filhos chave) arquivos folha)
          else (removido, .mk (gravar filhos chave (.mk rfilhos rarquivos rfolha)) arquivos folha)

/-- `Trie.remover`. -/
def remover (raiz : No) (padrao arquivo : Str) : Bool × No :=
  removerNo arquivo (padrao.length + 1) raiz padrao

end Trie

/-! ## Text utilities shared by `indexador.py` and `busca.py` -/

/-- Python `str.isspace` / regex `\s`, on the ASCII range. -/
def ehEspaco (c : Char) : Bool :=
  c == ' ' || c == '\t' || c == '\n' || c == '\r' || c == Char.ofNat 11 || c == Char.ofNat 12

/-- Regex `\w` (word character), on the ASCII range. -/
def ehPalavra (c : Char) : Bool := c.isAlpha || c.isDigit || c == '_'

/-- Alphanumeric character: what `[a-z0-9]+` with `re.IGNORECASE` matches. -/
def ehAlfaNum (c : Char) : Bool := c.isAlpha || c.isDigit

/-- Python `str.strip()`. -/
def aparar (l : Str) : Str :=
  ((l.dropWhile (ehEspaco ·)).reverse.dropWhile (ehEspaco ·)).reverse

/-- Python `str.upper()` (ASCII). -/
def paraMaiusculas (t : Str) : Str := t.map Char.toUpper

namespace Indexador

/-- `_normalizar`: lower-case and replace every non-word, non-space
character by a space. -/
def normalizarTexto (texto : Str) : Str :=
  (texto.map Char.toLower).map (fun c => if ehPalavra c || ehEspaco c then c else ' ')

/-- Maximal alphanumeric runs: `re.findall` of `[a-z0-9]+` (ignorecase).
The accumulator carries the run being built. -/
def agruparAux : Str → Str → List Str
  | [], atual => if atual = [] then [] else [atual]
  | c :: r, atual =>
    if ehAlfaNum c then agruparAux r (atual ++ [c])
    else if atual = [] then agruparAux r [] else atual :: agruparAux r []

/-- `_tokenizar`: normalize, split into alphanumeric runs, drop tokens of
length at most 2. -/
def tokenizar (texto : Str) : List Str :=
  (agruparAux (normalizarTexto texto) []).filter (fun t => 2 < t.length)

/-- `collections.Counter` over the token list: counts keyed in first-visit
order, as Python dicts preserve. -/
def contar (ts : List Str) : List (Str × Nat) :=
  ts.foldl (fun acc t => gravar acc t ((procurar acc t).getD 0 + 1)) []

/-- Per-document metadata stored by `indexar_documento`. -/
structure Metadados where
  tamanho : Nat
  num_palavras : Nat
  palavras_unicas : Nat
deriving DecidableEq

/-- The whole `IndexadorInvertido` state. -/
structure Estado where
  trie : Trie.No
  postings : List (Str × List (Str × Nat))
  documentos : List (Str × Str)
  metadados_documentos : List (Str × Metadados)
  estatisticas_globais : List (Str × Nat)
  indice_carregado : Bool

/-- `IndexadorInvertido.__init__`. -/
def estadoInicial : Estado :=
  { trie := Trie.raizVazia
    postings := []
    documentos := []
    metadados_documentos := []
    estatisticas_globais :=
      [(str "total_documentos", 0), (str "total_palavras", 0), (str "palavras_unicas", 0)]
    indice_carregado := false }

/-- `d[k] = d.get(k, 0) + n` on a counter dict (the statistics updates; the
keys are always present in the states the code builds). -/
def somarEm (e : List (Str × Nat)) (k : Str) (n : Nat) : List (Str × Nat) :=
  gravar e k ((procurar e k).getD 0 + n)

/-- `indexar_documento`: tokenize, store raw text and metadata, then for
each distinct term insert into the trie and accumulate the term frequency
into `postings` (`self.postings[termo][caminho] = ...get(caminho,0) + tf`,
where the defaultdict access materialises a fresh inner dict). -/
def indexar_documento (s : Estado) (caminho conteudo : Str) : Estado :=
  let tokens := tokenizar conteudo
  let atualizados := (contar tokens).foldl
    (fun (par : Trie.No × List (Str × List (Str × Nat))) tf =>
      let interno := (procurar par.2 tf.1).getD []
      (Trie.inserir par.1 tf.1 caminho,
       gravar par.2 tf.1 (gravar interno caminho ((procurar interno caminho).getD 0 + tf.2))))
    (s.trie, s.postings)
  { s with
    trie := atualizados.1
    postings := atualizados.2
    documentos := gravar s.documentos caminho conteudo
    metadados_documentos := gravar s.metadados_documentos caminho
      ⟨conteudo.length, tokens.length, tokens.dedup.length⟩
    estatisticas_globais :=
      somarEm (somarEm s.estatisticas_globais (str "total_documentos") 1)
        (str "total_palavras") tokens.length }

/-- `obter_postings`: `dict(self.postings.get(termo, {}))`.  In this
functional model the defensive copy is the value itself; the aliasing
aspect is modelled separately with an explicit store. -/
def obter_postings (s : Estado) (termo : Str) : List (Str × Nat) :=
  (procurar s.postings termo).getD []

/-- `calcular_zscore`, with Python floats idealised as real numbers. -/
noncomputable def calcular_zscore (s : Estado) (termo documento : Str) : ℝ :=
  let docs_tf := (procurar s.postings termo).getD []
  if docs_tf = [] then 0
  else
    let vals : List ℝ := docs_tf.map (fun p => (p.2 : ℝ))
    let media := vals.sum / (vals.length : ℝ)
    let var := (vals.map (fun v => (v - media) ^ 2)).sum / (vals.length : ℝ)
    let desvio := if 0 < var then Real.sqrt var else 0
    let tf_doc : ℝ := (((procurar docs_tf documento).getD 0 : Nat) : ℝ)
    if desvio = 0 then 0 else (tf_doc - media) / desvio

end Indexador

namespace Busca

open Indexador

/-- `if atual.strip(): tokens.append(atual.strip())`. -/
def solta (atual : Str) : List Str := if aparar atual = [] then [] else [aparar atual]

/-- The character scan of `_tokenizar_consulta`: quotes toggle `em_aspas`,
parentheses are standalone tokens outside quotes, whitespace separates
tokens outside quotes. -/
def varrer : List Char → Bool → Str → List Str
  | [], _, atual => solta atual
  | c :: resto, aspas, atual =>
    if c == '"' then solta atual ++ varrer resto (!aspas) []
    else if (c == '(' || c == ')') && !aspas then solta atual ++ [[c]] ++ varrer resto aspas []
    else if ehEspaco c && !aspas then solta atual ++ varrer resto aspas []
    else varrer resto aspas (atual ++ [c])

/-- `re.sub(r"[^\w\s]", "", t.lower())`. -/
def limparTermo (t : Str) : Str :=
  (t.map Char.toLower).filter (fun c => ehPalavra c || ehEspaco c)

/-- The normalisation pass of `_tokenizar_consulta`. -/
def normalizarTokens : List Str → List Str
  | [] => []
  | t :: resto =>
    if paraMaiusculas t == str "AND" || paraMaiusculas t == str "OR" then
      paraMaiusculas t :: normalizarTokens resto
    else if t == str "(" || t == str ")" then t :: normalizarTokens resto
    else
      let termo := limparTermo t
      if termo = [] then normalizarTokens resto else termo :: normalizarTokens resto

/-- The left-hand side of the implicit-AND test:
`t not in ("AND", "OR", "(", ")")`. -/
def ehOperGrupo (t : Str) : Bool :=
  t == str "AND" || t == str "OR" || t == str "(" || t == str ")"

/-- The right-hand side of the implicit-AND test:
`prox not in ("AND", "OR", ")")`. -/
def ehOperFecha (t : Str) : Bool :=
  t == str "AND" || t == str "OR" || t == str ")"

/-- The implicit-AND pass: scan adjacent pairs, inserting `AND` when the
left token is a plain term and the right token is a term or `(`. -/
def inserirAndImplicito : List Str → List Str
  | [] => []
  | [t] => [t]
  | t :: prox :: resto =>
    if !ehOperGrupo t && !ehOperFecha prox then
      t :: str "AND" :: inserirAndImplicito (prox :: resto)
    else t :: inserirAndImplicito (prox :: resto)

/-- `_tokenizar_consulta`. -/
def tokenizarConsulta (consulta : Str) : List Str :=
  inserirAndImplicito (normalizarTokens (varrer consulta false []))

/-- Operator precedence: `{"OR": 1, "AND": 2}.get(tok, 0)`. -/
def precedencia (t : Str) : Nat :=
  if t == str "OR" then 1 else if t == str "AND" then 2 else 0

/-- Drain the operator stack down to (but not including) `(`: the `)` case
of the shunting-yard loop.  Returns the drained output and the rest. -/
def despejarAteAbre : List Str → List Str × List Str
  | [] => ([], [])
  | t :: r =>
    if t == str "(" then ([], t :: r)
    else
      let dp := despejarAteAbre r
      (t :: dp.1, dp.2)

/-- Pop operators of precedence at least `tok`'s (stopping at `(`): the
operator case of the shunting-yard loop. -/
def despejarOper (tok : Str) : List Str → List Str × List Str
  | [] => ([], [])
  | t :: r =>
    if !(t == str "(") && precedencia tok ≤ precedencia t then
      let dp := despejarOper tok r
      (t :: dp.1, dp.2)
    else ([], t :: r)

/-- `_para_rpn`, with the operator stack represented head-as-top. -/
def paraRpnAux : List Str → List Str → List Str
  | [], pilha => pilha
  | tok :: resto, pilha =>
    if tok == str "(" then paraRpnAux resto (tok :: pilha)
    else if tok == str ")" then
      let dp := despejarAteAbre pilha
      let pilha2 := match dp.2 with
        | t :: r => if t == str "(" then r else t :: r
        | [] => []
      dp.1 ++ paraRpnAux resto pilha2
    else if tok == str "AND" || tok == str "OR" then
      let dp := despejarOper tok pilha
      dp.1 ++ paraRpnAux resto (tok :: dp.2)
    else tok :: paraRpnAux resto pilha

/-- `_para_rpn` entry point. -/
def paraRpn (tokens : List Str) : List Str := paraRpnAux tokens []

/-- `set(self.indexador.obter_postings(tok).keys())`. -/
def obterDocs (s : Estado) (tok : Str) : Finset Str :=
  ((Indexador.obter_postings s tok).map Prod.fst).toFinset

/-- The body of the `for tok in rpn_tokens` loop of `_avaliar_rpn`: `AND`
and `OR` pop two sets when available (and are skipped otherwise), any
other token pushes its postings' document set.  The stack is kept
head-as-top (Python appends and pops at the end of the list). -/
def passoRpn (s : Estado) (pilha : List (Finset Str)) (tok : Str) : List (Finset Str) :=
  if tok == str "AND" then
    match pilha with
    | b :: a :: r => (a ∩ b) :: r
    | _ => pilha
  else if tok == str "OR" then
    match pilha with
    | b :: a :: r => (a ∪ b) :: r
    | _ => pilha
  else obterDocs s tok :: pilha

/-- `_avaliar_rpn`.  With the stack head-as-top, Python's `pilha[0]` (the
first element ever pushed, i.e. the bottom) is the `getLast?` below. -/
def avaliarRpn (s : Estado) (tokens : List Str) : Finset Str :=
  let pilha := tokens.foldl (passoRpn s) []
  (pilha.getLast?).getD ∅

/-- `processar_consulta`: the pipeline guarded by `indice_carregado`.  The
`try/except` never fires in the model (every stage is total); `list(docs)`
enumerates the set in an unspecified order, here `Finset.toList`. -/
noncomputable def processar_consulta (s : Estado) (consulta : Str) : List Str :=
  if s.indice_carregado then
    (avaliarRpn s (paraRpn (tokenizarConsulta consulta))).toList
  else []

/-- One entry of the result list built by `calcular_relevancia`. -/
structure Resultado where
  documento : Str
  relevancia : ℝ
  z_scores : List ℝ

/-- `calcular_relevancia`: mean of the non-zero z-scores, then a stable
sort by descending relevance (Python's stable `list.sort(reverse=True)`;
`insertionSort` with the reversed relation is the same stable sort). -/
noncomputable def calcular_relevancia (s : Estado) (documentos : List Str) (consulta : Str) :
    List Resultado :=
  let tokens := tokenizarConsulta consulta
  let termos := tokens.filter (fun t => !ehOperGrupo t)
  let resultados := documentos.map (fun doc =>
    let zscores := termos.map (fun t => calcular_zscore s t doc)
    let validos := zscores.filter (fun z => !(z == 0))
    { documento := doc
      relevancia := if validos = [] then 0 else validos.sum / validos.length
      z_scores := zscores })
  resultados.insertionSort (fun a b => b.relevancia ≤ a.relevancia)

/-- `buscar`. -/
noncomputable def buscar (s : Estado) (consulta : Str) : List Resultado :=
  calcular_relevancia s (processar_consulta s consulta) consulta

end Busca

/-! ## Facts about the association-list operations -/

theorem mem_gravar {α : Type} {l : List (Str × α)} {k : Str} {v : α} {p : Str × α}
    (h : p ∈ gravar l k v) : p = (k, v) ∨ p ∈ l := by
  induction l with
  | nil =>
    simp only [gravar, List.mem_singleton] at h
    exact Or.inl h
  | cons q r ih =>
    rcases q with ⟨qk, qv⟩
    simp only [gravar] at h
    by_cases hk : qk = k
    · rw [if_pos hk] at h
      rcases List.mem_cons.mp h with h | h
      · exact Or.inl h
      · exact Or.inr (List.mem_cons_of_mem _ h)
    · rw [if_neg hk] at h
      rcases List.mem_cons.mp h with h | h
      · exact Or.inr (by rw [h]; exact List.mem_cons_self _ _)
      · rcases ih h with h1 | h1
        · exact Or.inl h1
        · exact Or.inr (List.mem_cons_of_mem _ h1)

theorem gravar_ne_nil {α : Type} (l : List (Str × α)) (k : Str) (v : α) :
    gravar l k v ≠ [] := by
  cases l with
  | nil => simp [gravar]
  | cons q r =>
    rcases q with ⟨qk, qv⟩
    by_cases hk : qk = k <;> simp [gravar, hk]

theorem nao_membro_chaves {α : Type} {l : List (Str × α)} {k qk : Str} {qv : α}
    (h : k ∉ chaves ((qk, qv) :: l)) : ¬ qk = k ∧ k ∉ chaves l := by
  simp only [chaves, List.map_cons, List.mem_cons, not_or] at h
  exact ⟨fun hh => h.1 hh.symm, h.2⟩

theorem gravar_nao_membro {α : Type} {l : List (Str × α)} {k : Str} (v : α)
    (h : k ∉ chaves l) : gravar l k v = l ++ [(k, v)] := by
  induction l with
  | nil => rfl
  | cons q r ih =>
    rcases q with ⟨qk, qv⟩
    rcases nao_membro_chaves h with ⟨h1, h2⟩
    simp only [gravar, if_neg h1, List.cons_append]
    rw [ih h2]

theorem gravar_no_meio {α : Type} {l1 : List (Str × α)} {k : Str} (f v : α)
    (l2 : List (Str × α)) (h : k ∉ chaves l1) :
    gravar (l1 ++ (k, f) :: l2) k v = l1 ++ (k, v) :: l2 := by
  induction l1 with
  | nil => simp [gravar]
  | cons q r ih =>
    rcases q with ⟨qk, qv⟩
    rcases nao_membro_chaves h with ⟨h1, h2⟩
    simp only [List.cons_append, gravar, if_neg h1]
    exact congrArg (List.cons (qk, qv)) (ih h2)

theorem apagar_no_meio {α : Type} {l1 : List (Str × α)} {k : Str} (f : α)
    (l2 : List (Str × α)) (h : k ∉ chaves l1) :
    apagar (l1 ++ (k, f) :: l2) k = l1 ++ l2 := by
  induction l1 with
  | nil => simp [apagar]
  | cons q r ih =>
    rcases q with ⟨qk, qv⟩
    rcases nao_membro_chaves h with ⟨h1, h2⟩
    simp only [List.cons_append, apagar, if_neg h1]
    exact congrArg (List.cons (qk, qv)) (ih h2)

theorem chaves_gravar_membro {α : Type} {l : List (Str × α)} {k : Str} (v : α)
    (h : k ∈ chaves l) : chaves (gravar l k v) = chaves l := by
  induction l with
  | nil => simp [chaves] at h
  | cons q r ih =>
    rcases q with ⟨qk, qv⟩
    by_cases hk : qk = k
    · simp [gravar, hk, chaves]
    · simp only [chaves, List.map_cons, List.mem_cons] at h
      rcases h with h | h
      · exact absurd h.symm hk
      · simp only [gravar, if_neg hk, chaves, List.map_cons]
        have := ih (show k ∈ chaves r from h)
        simp only [chaves] at this
        rw [this]

theorem procurar_gravar {α : Type} (l : List (Str × α)) (k : Str) (v : α) :
    procurar (gravar l k v) k = some v := by
  induction l with
  | nil => simp [gravar, procurar]
  | cons q r ih =>
    rcases q with ⟨qk, qv⟩
    by_cases hk : qk = k <;> simp [gravar, hk, procurar, ih]

theorem procurar_gravar_outro {α : Type} (l : List (Str × α)) {k q : Str} (v : α)
    (h : q ≠ k) : procurar (gravar l k v) q = procurar l q := by
  have hkq : ¬ k = q := fun hh => h hh.symm
  induction l with
  | nil => simp [gravar, procurar, hkq]
  | cons p r ih =>
    rcases p with ⟨pk, pv⟩
    by_cases hk : pk = k
    · subst hk
      simp [gravar, procurar, hkq, ih]
    · by_cases hq : pk = q <;> simp [gravar, hk, procurar, hq, h, ih]

theorem procurar_eq_some_mem {α : Type} {l : List (Str × α)} {k : Str} {v : α}
    (h : procurar l k = some v) : (k, v) ∈ l := by
  induction l with
  | nil => simp [procurar] at h
  | cons q r ih =>
    rcases q with ⟨qk, qv⟩
    simp only [procurar] at h
    by_cases hk : qk = k
    · rw [if_pos hk] at h
      injection h with h2
      rw [← hk, ← h2]
      exact List.mem_cons_self _ _
    · rw [if_neg hk] at h
      exact List.mem_cons_of_mem _ (ih h)

theorem procurar_nao_membro {α : Type} {l : List (Str × α)} {k : Str}
    (h : k ∉ chaves l) : procurar l k = none := by
  induction l with
  | nil => rfl
  | cons q r ih =>
    rcases q with ⟨qk, qv⟩
    rcases nao_membro_chaves h with ⟨h1, h2⟩
    simp only [procurar, if_neg h1]
    exact ih h2

theorem apagar_sublista {α : Type} (l : List (Str × α)) (k : Str) :
    List.Sublist (apagar l k) l := by
  induction l with
  | nil => simp [apagar]
  | cons q r ih =>
    rcases q with ⟨qk, qv⟩
    by_cases hk : qk = k
    · simp only [apagar, if_pos hk]
      exact List.sublist_cons_self _ _
    · simp only [apagar, if_neg hk]
      exact ih.cons₂ (qk, qv)

namespace Trie

theorem tamComum_le_esq : ∀ a b : Str, tamComum a b ≤ a.length := by
  intro a
  induction a with
  | nil => intro b; cases b <;> simp [tamComum]
  | cons x as ih =>
    intro b
    cases b with
    | nil => simp [tamComum]
    | cons y bs =>
      by_cases h : x = y <;> simp [tamComum, h, Nat.succ_le_succ (ih bs)]

theorem tamComum_comm : ∀ a b : Str, tamComum a b = tamComum b a := by
  intro a
  induction a with
  | nil => intro b; cases b <;> simp [tamComum]
  | cons x as ih =>
    intro b
    cases b with
    | nil => simp [tamComum]
    | cons y bs =>
      by_cases h : x = y
      · simp [tamComum, h, ih bs]
      · have h2 : ¬ y = x := fun hh => h hh.symm
        simp [tamComum, h, h2]

theorem tamComum_le_dir (a b : Str) : tamComum a b ≤ b.length := by
  rw [tamComum_comm]; exact tamComum_le_esq b a

theorem tamComum_self : ∀ a : Str, tamComum a a = a.length := by
  intro a
  induction a with
  | nil => simp [tamComum]
  | cons x as ih => simp [tamComum, ih]

theorem tamComum_take : ∀ (m : Nat) (a b : Str),
    tamComum (a.take m) b = min m (tamComum a b) := by
  intro m
  induction m with
  | zero => intro a b; cases b <;> simp [tamComum]
  | succ m ih =>
    intro a b
    cases a with
    | nil => cases b <;> simp [tamComum]
    | cons x as =>
      cases b with
      | nil => simp [tamComum]
      | cons y bs =>
        by_cases h : x = y
        · simp only [List.take_succ_cons, tamComum, if_pos h, ih as bs]
          omega
        · simp [tamComum, h]

theorem tamComum_drop_zero : ∀ a b : Str,
    tamComum a b < a.length → tamComum a b < b.length →
    tamComum (a.drop (tamComum a b)) (b.drop (tamComum a b)) = 0 := by
  intro a
  induction a with
  | nil =>
    intro b h1 _
    simp only [tamComum, List.length_nil] at h1
    cases b <;> simp_all [tamComum]
  | cons x as ih =>
    intro b h1 h2
    cases b with
    | nil =>
      simp only [tamComum, List.length_nil] at h2
      cases h2
    | cons y bs =>
      by_cases h : x = y
      · simp only [tamComum, if_pos h, List.length_cons, Nat.add_lt_add_iff_right,
          List.drop_succ_cons] at h1 h2 ⊢
        exact ih bs h1 h2
      · simp [tamComum, h]

theorem acharRamo_none {padrao : Str} {l : List (Str × No)}
    (h : acharRamo padrao l = none) : ∀ q ∈ l, tamComum q.1 padrao = 0 := by
  induction l with
  | nil => simp
  | cons p r ih =>
    rcases p with ⟨k, f⟩
    by_cases hk : 0 < tamComum k padrao
    · simp [acharRamo, hk] at h
    · intro q hq
      simp only [acharRamo, if_neg hk] at h
      rcases List.mem_cons.mp hq with hq | hq
      · subst hq
        show tamComum k padrao = 0
        omega
      · exact ih h q hq

theorem acharRamo_some {padrao : Str} {l : List (Str × No)} {chave : Str} {filho : No}
    (h : acharRamo padrao l = some (chave, filho)) :
    ∃ l1 l2, l = l1 ++ (chave, filho) :: l2 ∧
      (∀ q ∈ l1, tamComum q.1 padrao = 0) ∧ 0 < tamComum chave padrao := by
  induction l with
  | nil => simp [acharRamo] at h
  | cons p r ih =>
    rcases p with ⟨k, f⟩
    by_cases hk : 0 < tamComum k padrao
    · simp only [acharRamo, if_pos hk, Option.some.injEq, Prod.mk.injEq] at h
      obtain ⟨h1, h2⟩ := h
      subst h1
      subst h2
      exact ⟨[], r, by simp, by simp, hk⟩
    · simp only [acharRamo, if_neg hk] at h
      rcases ih h with ⟨l1, l2, he, hz, hc⟩
      refine ⟨(k, f) :: l1, l2, by simp [he], ?_, hc⟩
      intro q hq
      rcases List.mem_cons.mp hq with hq | hq
      · subst hq
        show tamComum k padrao = 0
        omega
      · exact hz q hq

end Trie

namespace Trie

/-- A node is alive when it is terminal or has at least one child; claim
C5 requires every non-root reachable node to be alive. -/
def Vivo (n : No) : Prop := n.folha = true ∨ n.filhos ≠ []

/-- Strengthened well-formedness: the terminal flag tracks non-emptiness
of the file set, sibling edge labels are non-empty and pairwise share no
common initial segment, and every child is alive and well-formed. -/
inductive Bom : No → Prop where
  | intro {filhos : List (Str × No)} {arquivos : Finset Str} {folha : Bool} :
      (folha = true ↔ arquivos.Nonempty) →
      List.Pairwise (fun a b => tamComum a b = 0) (chaves filhos) →
      (∀ par ∈ filhos, par.1 ≠ []) →
      (∀ par ∈ filhos, Vivo par.2) →
      (∀ par ∈ filhos, Bom par.2) →
      Bom (.mk filhos arquivos folha)

theorem bom_vazia : Bom raizVazia := by
  refine Bom.intro ?_ ?_ ?_ ?_ ?_ <;> simp [raizVazia, chaves]

theorem bom_folhaNova (arquivo : Str) : Bom (folhaNova arquivo) := by
  refine Bom.intro ?_ ?_ ?_ ?_ ?_ <;> simp [folhaNova, chaves]

/-- Splitting a pairwise property at a distinguished element. -/
theorem pares_extrair {α : Type} {R : α → α → Prop} {l1 l2 : List α} {k : α}
    (h : List.Pairwise R (l1 ++ k :: l2)) :
    List.Pairwise R (l1 ++ l2) ∧ (∀ a ∈ l1, R a k) ∧ (∀ b ∈ l2, R k b) := by
  rw [List.pairwise_append] at h
  rcases h with ⟨hp1, hp2, hcross⟩
  rw [List.pairwise_cons] at hp2
  refine ⟨List.pairwise_append.mpr ⟨hp1, hp2.2, ?_⟩, ?_, hp2.1⟩
  · intro a ha b hb
    exact hcross a ha b (List.mem_cons_of_mem _ hb)
  · intro a ha
    exact hcross a ha k (List.mem_cons_self _ _)

theorem pares_acrescentar {α : Type} {R : α → α → Prop} {l : List α} {k : α}
    (h : List.Pairwise R l) (hk : ∀ a ∈ l, R a k) :
    List.Pairwise R (l ++ [k]) := by
  refine List.pairwise_append.mpr ⟨h, List.pairwise_singleton _ _, ?_⟩
  intro a ha b hb
  rw [List.mem_singleton] at hb
  subst hb
  exact hk a ha

theorem chaves_append {α : Type} (l1 l2 : List (Str × α)) :
    chaves (l1 ++ l2) = chaves l1 ++ chaves l2 := List.map_append _ _ _

theorem chaves_cons {α : Type} (p : Str × α) (l : List (Str × α)) :
    chaves (p :: l) = p.1 :: chaves l := rfl

theorem mem_chaves_de_mem {α : Type} {l : List (Str × α)} {p : Str × α}
    (h : p ∈ l) : p.1 ∈ chaves l := List.mem_map_of_mem _ h

theorem mem_chaves {α : Type} {l : List (Str × α)} {k : Str}
    (h : k ∈ chaves l) : ∃ v, (k, v) ∈ l := by
  rcases List.mem_map.mp h with ⟨⟨pk, pv⟩, hp, he⟩
  exact ⟨pv, by rw [← he]; exact hp⟩

/-- `inserirNo` always yields a live node (it either marks the node
terminal or leaves it with at least one child). -/
theorem inserirNo_vivo (arquivo : Str) :
    ∀ (fuel : Nat) (n : No) (p : Str), p.length < fuel →
      Vivo (inserirNo arquivo fuel n p) := by
  intro fuel
  cases fuel with
  | zero => intro n p h; omega
  | succ fuel =>
    intro n p _
    cases p with
    | nil => exact Or.inl rfl
    | cons c resto =>
      simp only [inserirNo]
      rcases hr : acharRamo (c :: resto) n.filhos with _ | ⟨chave, filho⟩
      · simp only []
        exact Or.inr (by simpa [No.filhos] using gravar_ne_nil _ _ _)
      · simp only []
        by_cases hcl : tamComum chave (c :: resto) = chave.length
      
        · simp only [if_pos hcl]
          exact Or.inr (by simpa [No.filhos] using gravar_ne_nil _ _ _)
        · simp only [if_neg hcl]
          exact Or.inr (by simpa [No.filhos] using gravar_ne_nil _ _ _)

end Trie

namespace Trie

/-- `inserirNo` preserves well-formedness. -/
theorem inserirNo_bom (arquivo : Str) :
    ∀ (fuel : Nat) (p : Str) (n : No), p.length < fuel → Bom n →
      Bom (inserirNo arquivo fuel n p) := by
  intro fuel
  induction fuel with
  | zero => intro p n h _; omega
  | succ fuel ih =>
    intro p n hlen hb
    cases hb with
    | @intro filhos arquivos folha h1 h2 h3 h4 h5 =>
      cases p with
      | nil =>
        simp only [inserirNo, No.filhos, No.arquivos]
        exact Bom.intro (by simp) h2 h3 h4 h5
      | cons c resto =>
        simp only [inserirNo, No.filhos, No.arquivos, No.folha]
        rcases hr : acharRamo (c :: resto) filhos with _ | ⟨chave, filho⟩
        · dsimp only
          have hnm : (c :: resto) ∉ chaves filhos := by
            intro hmem
            rcases mem_chaves hmem with ⟨v, hv⟩
            have hz : tamComum (c :: resto) (c :: resto) = 0 := acharRamo_none hr (c :: resto, v) hv
            rw [tamComum_self] at hz
            simp at hz
          rw [gravar_nao_membro _ hnm]
          refine Bom.intro h1 ?_ ?_ ?_ ?_
          · rw [chaves_append]
            refine pares_acrescentar h2 ?_
            intro a ha
            rcases mem_chaves ha with ⟨v, hv⟩
            exact acharRamo_none hr (a, v) hv
          · intro par hp
            rcases List.mem_append.mp hp with hp | hp
            · exact h3 par hp
            · rw [List.mem_singleton] at hp
              subst hp
              simp
          · intro par hp
            rcases List.mem_append.mp hp with hp | hp
            · exact h4 par hp
            · rw [List.mem_singleton] at hp
              subst hp
              exact Or.inl rfl
          · intro par hp
            rcases List.mem_append.mp hp with hp | hp
            · exact h5 par hp
            · rw [List.mem_singleton] at hp
              subst hp
              exact bom_folhaNova arquivo
        · dsimp only
          obtain ⟨l1, l2, hsplit, hz, hc⟩ := acharRamo_some hr
          subst hsplit
          have hch : chave ∉ chaves l1 := by
            intro hmem
            rcases mem_chaves hmem with ⟨v, hv⟩
            have hzz : tamComum chave (c :: resto) = 0 := hz _ hv
            omega
          have hmemc : (chave, filho) ∈ l1 ++ (chave, filho) :: l2 := by simp
          by_cases hcl : tamComum chave (c :: resto) = chave.length
          · rw [if_pos hcl]
            have hsub : (List.drop (tamComum chave (c :: resto)) (c :: resto)).length < fuel := by
              have hle := tamComum_le_dir chave (c :: resto)
              simp only [List.length_drop]
              simp only [List.length_cons] at hlen ⊢
              omega
            have hbomX := ih _ filho hsub (h5 _ hmemc)
            have hvivoX := inserirNo_vivo arquivo fuel filho _ hsub
            rw [gravar_no_meio _ _ _ hch]
            refine Bom.intro h1 ?_ ?_ ?_ ?_
            · have hkeq : chaves (l1 ++ (chave,
                  inserirNo arquivo fuel filho (List.drop (tamComum chave (c :: resto)) (c :: resto))) :: l2)
                  = chaves (l1 ++ (chave, filho) :: l2) := by
                rw [chaves_append, chaves_append, chaves_cons, chaves_cons]
              rw [hkeq]
              exact h2
            · intro par hp
              rcases List.mem_append.mp hp with hp | hp
              · exact h3 par (List.mem_append_left _ hp)
              · rcases List.mem_cons.mp hp with hp | hp
                · subst hp
                  exact h3 (chave, filho) hmemc
                · exact h3 par (List.mem_append_right _ (List.mem_cons_of_mem _ hp))
            · intro par hp
              rcases List.mem_append.mp hp with hp | hp
              · exact h4 par (List.mem_append_left _ hp)
              · rcases List.mem_cons.mp hp with hp | hp
                · subst hp
                  exact hvivoX
                · exact h4 par (List.mem_append_right _ (List.mem_cons_of_mem _ hp))
            · intro par hp
              rcases List.mem_append.mp hp with hp | hp
              · exact h5 par (List.mem_append_left _ hp)
              · rcases List.mem_cons.mp hp with hp | hp
                · subst hp
                  exact hbomX
                · exact h5 par (List.mem_append_right _ (List.mem_cons_of_mem _ hp))
          · rw [if_neg hcl]
            have hclt : tamComum chave (c :: resto) < chave.length :=
              lt_of_le_of_ne (tamComum_le_esq chave (c :: resto)) hcl
            have hEx := pares_extrair (by rw [chaves_append, chaves_cons] at h2; exact h2)
            have htake : (chave.take (tamComum chave (c :: resto))).length
                = tamComum chave (c :: resto) := by
              rw [List.length_take]
              omega
            have hpcz : ∀ a ∈ chaves l1 ++ chaves l2,
                tamComum a (chave.take (tamComum chave (c :: resto))) = 0 := by
              intro a ha
              have hach : tamComum chave a = 0 := by
                rcases List.mem_append.mp ha with ha | ha
                · rw [tamComum_comm]
                  exact hEx.2.1 a ha
                · exact hEx.2.2 a ha
              rw [tamComum_comm, tamComum_take, hach]
              simp
            have hpc_nm : chave.take (tamComum chave (c :: resto)) ∉ chaves (l1 ++ l2) := by
              intro hmem
              have hself := hpcz _ (by rwa [chaves_append] at hmem)
              rw [tamComum_self, htake] at hself
              omega
            rw [apagar_no_meio _ _ hch, gravar_nao_membro _ hpc_nm]
            have hnovo : Bom (if List.drop (tamComum chave (c :: resto)) (c :: resto) = [] then
                  No.mk [(chave.drop (tamComum chave (c :: resto)), filho)] {arquivo} true
                else
                  No.mk [(chave.drop (tamComum chave (c :: resto)), filho),
                    (List.drop (tamComum chave (c :: resto)) (c :: resto), folhaNova arquivo)] ∅ false)
                ∧ Vivo (if List.drop (tamComum chave (c :: resto)) (c :: resto) = [] then
                  No.mk [(chave.drop (tamComum chave (c :: resto)), filho)] {arquivo} true
                else
                  No.mk [(chave.drop (tamComum chave (c :: resto)), filho),
                    (List.drop (tamComum chave (c :: resto)) (c :: resto), folhaNova arquivo)] ∅ false) := by
              have hrc : chave.drop (tamComum chave (c :: resto)) ≠ [] := by
                intro hh
                rw [List.drop_eq_nil_iff] at hh
                omega
              by_cases hrp : List.drop (tamComum chave (c :: resto)) (c :: resto) = []
              · rw [if_pos hrp]
                constructor
                · refine Bom.intro (by simp) ?_ ?_ ?_ ?_
                  · simp [chaves, chaves_cons]
                  · intro par hp
                    rw [List.mem_singleton] at hp
                    subst hp
                    exact hrc
                  · intro par hp
                    rw [List.mem_singleton] at hp
                    subst hp
                    exact h4 (chave, filho) hmemc
                  · intro par hp
                    rw [List.mem_singleton] at hp
                    subst hp
                    exact h5 (chave, filho) hmemc
                · exact Or.inl rfl
              · rw [if_neg hrp]
                have hcplt : tamComum chave (c :: resto) < (c :: resto).length := by
                  rcases Nat.lt_or_ge (tamComum chave (c :: resto)) (c :: resto).length with hlt | hge
                  · exact hlt
                  · exact absurd (List.drop_eq_nil_iff.mpr hge) hrp
                have hdz := tamComum_drop_zero chave (c :: resto) hclt hcplt
                constructor
                · refine Bom.intro (by simp) ?_ ?_ ?_ ?_
                  · simp only [chaves, List.map_cons, List.map_nil]
                    refine List.pairwise_cons.mpr ⟨?_, List.pairwise_singleton _ _⟩
                    intro b hb
                    rw [List.mem_singleton] at hb
                    subst hb
                    exact hdz
                  · intro par hp
                    rcases List.mem_cons.mp hp with hp | hp
                    · subst hp; exact hrc
                    · rw [List.mem_singleton] at hp
                      subst hp
                      exact hrp
                  · intro par hp
                    rcases List.mem_cons.mp hp with hp | hp
                    · subst hp; exact h4 (chave, filho) hmemc
                    · rw [List.mem_singleton] at hp
                      subst hp
                      exact Or.inl rfl
                  · intro par hp
                    rcases List.mem_cons.mp hp with hp | hp
                    · subst hp; exact h5 (chave, filho) hmemc
                    · rw [List.mem_singleton] at hp
                      subst hp
                      exact bom_folhaNova arquivo
                · exact Or.inr (by simp [No.filhos])
            refine Bom.intro h1 ?_ ?_ ?_ ?_
            · rw [chaves_append, chaves_append]
              refine pares_acrescentar ?_ ?_
              · exact hEx.1
              · intro a ha
                exact hpcz a ha
            · intro par hp
              rcases List.mem_append.mp hp with hp | hp
              · rcases List.mem_append.mp hp with hp | hp
                · exact h3 par (List.mem_append_left _ hp)
                · exact h3 par (List.mem_append_right _ (List.mem_cons_of_mem _ hp))
              · rw [List.mem_singleton] at hp
                subst hp
                intro hh
                have hh2 : List.take (tamComum chave (c :: resto)) chave = [] := hh
                rw [hh2] at htake
                simp at htake
                omega
            · intro par hp
              rcases List.mem_append.mp hp with hp | hp
              · rcases List.mem_append.mp hp with hp | hp
                · exact h4 par (List.mem_append_left _ hp)
                · exact h4 par (List.mem_append_right _ (List.mem_cons_of_mem _ hp))
              · rw [List.mem_singleton] at hp
                subst hp
                exact hnovo.2
            · intro par hp
              rcases List.mem_append.mp hp with hp | hp
              · rcases List.mem_append.mp hp with hp | hp
                · exact h5 par (List.mem_append_left _ hp)
                · exact h5 par (List.mem_append_right _ (List.mem_cons_of_mem _ hp))
              · rw [List.mem_singleton] at hp
                subst hp
                exact hnovo.1

end Trie

namespace Trie

theorem No.eta : ∀ n : No, No.mk n.filhos n.arquivos n.folha = n := by
  intro n
  cases n
  rfl

theorem Bom.ok {n : No} (h : Bom n) : n.folha = true ↔ n.arquivos.Nonempty := by
  cases h with
  | intro h1 _ _ _ _ => exact h1

theorem Bom.pares {n : No} (h : Bom n) :
    List.Pairwise (fun a b => tamComum a b = 0) (chaves n.filhos) := by
  cases h with
  | intro _ h2 _ _ _ => exact h2

theorem Bom.chavesNV {n : No} (h : Bom n) : ∀ par ∈ n.filhos, par.1 ≠ [] := by
  cases h with
  | intro _ _ h3 _ _ => exact h3

theorem Bom.vivos {n : No} (h : Bom n) : ∀ par ∈ n.filhos, Vivo par.2 := by
  cases h with
  | intro _ _ _ h4 _ => exact h4

theorem Bom.bons {n : No} (h : Bom n) : ∀ par ∈ n.filhos, Bom par.2 := by
  cases h with
  | intro _ _ _ _ h5 => exact h5


/-- When `pode_remover` reports failure it has not modified the node. -/
theorem removerNo_falso (arquivo : Str) :
    ∀ (fuel : Nat) (p : Str) (n : No), (removerNo arquivo fuel n p).1 = false →
      (removerNo arquivo fuel n p).2 = n := by
  intro fuel
  induction fuel with
  | zero => intro p n _; rfl
  | succ fuel ih =>
    intro p n hf
    cases n with
    | mk filhos arquivos folha =>
      simp only [removerNo] at hf ⊢
      rcases hr : acharRamo p filhos with _ | ⟨chave, filho⟩
      · rfl
      · rw [hr] at hf
        dsimp only at hf ⊢
        by_cases hb1 : tamComum chave p < chave.length ∧ tamComum chave p < p.length
        · rw [if_pos hb1]
        · rw [if_neg hb1] at hf ⊢
          by_cases hb2 : tamComum chave p = p.length
          · rw [if_pos hb2] at hf
            cases filho with
            | mk ff fa fb =>
              dsimp only at hf
              rw [apply_ite Prod.fst] at hf
              simp at hf
          · rw [if_neg hb2] at hf ⊢
            obtain ⟨l1, l2, hsplit, hz, hc⟩ := acharRamo_some hr
            have hch : chave ∉ chaves l1 := by
              intro hmem
              rcases mem_chaves hmem with ⟨v, hv⟩
              have hzz : tamComum chave p = 0 := hz _ hv
              omega
            rcases hrec : removerNo arquivo fuel filho (List.drop (tamComum chave p) p) with
              ⟨removido, rnode⟩
            cases rnode with
            | mk rf ra rb =>
              rw [hrec] at hf
              dsimp only at hf ⊢
              by_cases hdead : (removido && rf.isEmpty && !rb) = true
              · rw [if_pos hdead] at hf ⊢
                dsimp only at hf
                rw [hf] at hdead
                simp at hdead
              · rw [if_neg hdead] at hf ⊢
                dsimp only at hf
                have hunch := ih _ filho (by rw [hrec]; exact hf)
                rw [hrec] at hunch
                dsimp only at hunch
                rw [hunch, hsplit, gravar_no_meio _ _ _ hch, ← hsplit]

/-- `pode_remover` preserves well-formedness. -/
theorem removerNo_bom (arquivo : Str) :
    ∀ (fuel : Nat) (p : Str) (n : No), p.length < fuel → Bom n →
      Bom (removerNo arquivo fuel n p).2 := by
  intro fuel
  induction fuel with
  | zero => intro p n h _; omega
  | succ fuel ih =>
    intro p n hlen hb
    cases hb with
    | @intro filhos arquivos folha h1 h2 h3 h4 h5 =>
      simp only [removerNo]
      rcases hr : acharRamo p filhos with _ | ⟨chave, filho⟩
      · exact Bom.intro h1 h2 h3 h4 h5
      · dsimp only
        obtain ⟨l1, l2, hsplit, hz, hc⟩ := acharRamo_some hr
        subst hsplit
        have hch : chave ∉ chaves l1 := by
          intro hmem
          rcases mem_chaves hmem with ⟨v, hv⟩
          have hzz : tamComum chave p = 0 := hz _ hv
          omega
        have hmemc : (chave, filho) ∈ l1 ++ (chave, filho) :: l2 := by simp
        have h2b : List.Pairwise (fun a b => tamComum a b = 0)
            (chaves l1 ++ chave :: chaves l2) := by
          rwa [chaves_append, chaves_cons] at h2
        have hEx := pares_extrair h2b
        have hsub : ∀ par : Str × No, par ∈ l1 ++ l2 → par ∈ l1 ++ (chave, filho) :: l2 := by
          intro par hp
          rcases List.mem_append.mp hp with hp | hp
          · exact List.mem_append_left _ hp
          · exact List.mem_append_right _ (List.mem_cons_of_mem _ hp)
        have hApagarBom : Bom (No.mk (l1 ++ l2) arquivos folha) := by
          refine Bom.intro h1 ?_ ?_ ?_ ?_
          · rw [chaves_append]
            exact hEx.1
          · intro par hp
            exact h3 par (hsub par hp)
          · intro par hp
            exact h4 par (hsub par hp)
          · intro par hp
            exact h5 par (hsub par hp)
        by_cases hb1 : tamComum chave p < chave.length ∧ tamComum chave p < p.length
        · rw [if_pos hb1]
          exact Bom.intro h1 h2 h3 h4 h5
        · rw [if_neg hb1]
          by_cases hb2 : tamComum chave p = p.length
          · rw [if_pos hb2]
            cases filho with
            | mk ff fa fb =>
              dsimp only
              by_cases hdead : (ff.isEmpty && !(if fa.erase arquivo = ∅ then false else fb)) = true
              · rw [if_pos hdead]
                rw [apagar_no_meio _ _ hch]
                exact hApagarBom
              · rw [if_neg hdead]
                have hbf : Bom (No.mk ff fa fb) := h5 _ hmemc
                have hbf2 : Bom (No.mk ff (fa.erase arquivo)
                    (if fa.erase arquivo = ∅ then false else fb)) := by
                  refine Bom.intro ?_ hbf.pares hbf.chavesNV hbf.vivos hbf.bons
                  by_cases hae : fa.erase arquivo = ∅
                  · simp [hae]
                  · rw [if_neg hae]
                    have hne : (fa.erase arquivo).Nonempty :=
                      Finset.nonempty_iff_ne_empty.mpr hae
                    have hfa : fa.Nonempty := hne.mono (Finset.erase_subset _ _)
                    exact iff_of_true (hbf.ok.mpr hfa) hne
                have hvf2 : Vivo (No.mk ff (fa.erase arquivo)
                    (if fa.erase arquivo = ∅ then false else fb)) := by
                  by_cases hff : ff.isEmpty = true
                  · left
                    cases hcond : (if fa.erase arquivo = ∅ then false else fb) with
                    | true => rfl
                    | false => exact absurd (by rw [hff, hcond]; decide) hdead
                  · right
                    show ff ≠ []
                    simpa [List.isEmpty_iff] using hff
                rw [gravar_no_meio _ _ _ hch]
                refine Bom.intro h1 ?_ ?_ ?_ ?_
                · rw [chaves_append, chaves_cons]
                  exact h2b
                · intro par hp
                  rcases List.mem_append.mp hp with hp | hp
                  · exact h3 par (List.mem_append_left _ hp)
                  · rcases List.mem_cons.mp hp with hp | hp
                    · subst hp
                      exact h3 (chave, No.mk ff fa fb) hmemc
                    · exact h3 par (List.mem_append_right _ (List.mem_cons_of_mem _ hp))
                · intro par hp
                  rcases List.mem_append.mp hp with hp | hp
                  · exact h4 par (List.mem_append_left _ hp)
                  · rcases List.mem_cons.mp hp with hp | hp
                    · subst hp
                      exact hvf2
                    · exact h4 par (List.mem_append_right _ (List.mem_cons_of_mem _ hp))
                · intro par hp
                  rcases List.mem_append.mp hp with hp | hp
                  · exact h5 par (List.mem_append_left _ hp)
                  · rcases List.mem_cons.mp hp with hp | hp
                    · subst hp
                      exact hbf2
                    · exact h5 par (List.mem_append_right _ (List.mem_cons_of_mem _ hp))
          · rw [if_neg hb2]
            have hfuel2 : (List.drop (tamComum chave p) p).length < fuel := by
              have hled := tamComum_le_dir chave p
              simp only [List.length_drop]
              omega
            have hbomR := ih _ filho hfuel2 (h5 _ hmemc)
            rcases hrec : removerNo arquivo fuel filho (List.drop (tamComum chave p) p) with
              ⟨removido, rnode⟩
            cases rnode with
            | mk rf ra rb =>
              rw [hrec] at hbomR
              dsimp only at hbomR ⊢
              by_cases hdead : (removido && rf.isEmpty && !rb) = true
              · rw [if_pos hdead]
                rw [apagar_no_meio _ _ hch]
                exact hApagarBom
              · rw [if_neg hdead]
                have hvivo : Vivo (No.mk rf ra rb) := by
                  by_cases hrem : removido = true
                  · by_cases hff : rf.isEmpty = true
                    · left
                      cases hrb : rb with
                      | true => rfl
                      | false => exact absurd (by rw [hrem, hff, hrb]; decide) hdead
                    · right
                      show rf ≠ []
                      simpa [List.isEmpty_iff] using hff
                  · have hrf : removido = false := by simpa using hrem
                    have hunch := removerNo_falso arquivo fuel _ filho (by rw [hrec]; exact hrf)
                    rw [hrec] at hunch
                    dsimp only at hunch
                    rw [hunch]
                    exact h4 _ hmemc
                rw [gravar_no_meio _ _ _ hch]
                refine Bom.intro h1 ?_ ?_ ?_ ?_
                · rw [chaves_append, chaves_cons]
                  exact h2b
                · intro par hp
                  rcases List.mem_append.mp hp with hp | hp
                  · exact h3 par (List.mem_append_left _ hp)
                  · rcases List.mem_cons.mp hp with hp | hp
                    · subst hp
                      exact h3 (chave, filho) hmemc
                    · exact h3 par (List.mem_append_right _ (List.mem_cons_of_mem _ hp))
                · intro par hp
                  rcases List.mem_append.mp hp with hp | hp
                  · exact h4 par (List.mem_append_left _ hp)
                  · rcases List.mem_cons.mp hp with hp | hp
                    · subst hp
                      exact hvivo
                    · exact h4 par (List.mem_append_right _ (List.mem_cons_of_mem _ hp))
                · intro par hp
                  rcases List.mem_append.mp hp with hp | hp
                  · exact h5 par (List.mem_append_left _ hp)
                  · rcases List.mem_cons.mp hp with hp | hp
                    · subst hp
                      exact hbomR
                    · exact h5 par (List.mem_append_right _ (List.mem_cons_of_mem _ hp))

end Trie

namespace Trie

/-- The property claim C5 asserts of every reachable tree: sibling edge
labels share no non-empty initial segment, and every non-root node is
terminal with a non-empty file set or has at least one child. -/
inductive Invariante : No → Prop where
  | intro {filhos : List (Str × No)} {arquivos : Finset Str} {folha : Bool} :
      List.Pairwise (fun a b => tamComum a b = 0) (chaves filhos) →
      (∀ par ∈ filhos, (par.2.folha = true ∧ par.2.arquivos.Nonempty) ∨ par.2.filhos ≠ []) →
      (∀ par ∈ filhos, Invariante par.2) →
      Invariante (.mk filhos arquivos folha)

theorem bom_invariante : ∀ {n : No}, Bom n → Invariante n := by
  intro n hb
  induction hb with
  | @intro filhos arquivos folha h1 h2 h3 h4 h5 ih =>
    refine Invariante.intro h2 ?_ ih
    intro par hp
    rcases h4 par hp with hv | hv
    · exact Or.inl ⟨hv, ((h5 par hp).ok).mp hv⟩
    · exact Or.inr hv

theorem inserir_bom {n : No} (padrao arquivo : Str) (h : Bom n) :
    Bom (inserir n padrao arquivo) :=
  inserirNo_bom arquivo (padrao.length + 1) padrao n (by omega) h

theorem remover_bom {n : No} (padrao arquivo : Str) (h : Bom n) :
    Bom (remover n padrao arquivo).2 :=
  removerNo_bom arquivo (padrao.length + 1) padrao n (by omega) h

/-- One trie mutation: an `inserir` or a `remover` call. -/
inductive Operacao where
  | ins (termo arquivo : Str)
  | rem (termo arquivo : Str)
deriving DecidableEq

def Operacao.termo : Operacao → Str
  | .ins t _ => t
  | .rem t _ => t

def aplicarOperacao (n : No) : Operacao → No
  | .ins t a => inserir n t a
  | .rem t a => (remover n t a).2

/-- Run a sequence of insert/remove operations from the empty trie. -/
def aplicarOperacoes (ops : List Operacao) : No :=
  ops.foldl aplicarOperacao raizVazia

theorem aplicar_bom : ∀ (ops : List Operacao) (n : No), Bom n →
    Bom (ops.foldl aplicarOperacao n) := by
  intro ops
  induction ops with
  | nil => intro n h; exact h
  | cons op resto ih =>
    intro n h
    cases op with
    | ins t a => exact ih _ (inserir_bom t a h)
    | rem t a => exact ih _ (remover_bom t a h)

end Trie

/-- C4: the claim says `remover(t, d)` for a term `t` not stored in the
trie is a no-op returning false.  The code contradicts this (and its own
stated intent of only removing stored patterns): with only "casa" stored
for document "d1", removing the strict prefix "ca" returns `True` and
deletes "d1" from the "casa" node, pruning the whole branch.  This theorem
evaluates the model at that failing input. -/
theorem c4_remover_ausente_apaga :
    (Trie.remover (Trie.inserir Trie.raizVazia (str "casa") (str "d1")) (str "ca") (str "d1")).1
      = true ∧
    ((Trie.remover (Trie.inserir Trie.raizVazia (str "casa") (str "d1")) (str "ca")
      (str "d1")).2).filhos.length = 0 := by
  decide

/-- C5: after any sequence of `inserir`/`remover` operations on non-empty
terms starting from the empty trie, no two sibling edge labels share a
non-empty common segment, and every non-root reachable node is either
terminal with a non-empty document set or has at least one child. -/
theorem c5_invariante_trie (ops : List Trie.Operacao)
    (hne : ∀ op ∈ ops, op.termo ≠ []) :
    Trie.Invariante (Trie.aplicarOperacoes ops) :=
  Trie.bom_invariante (Trie.aplicar_bom ops Trie.raizVazia Trie.bom_vazia)

theorem c5_invariante_trie_witness :
    (∀ op ∈ [Trie.Operacao.ins (str "casa") (str "d1"),
      Trie.Operacao.ins (str "cab") (str "d2"),
      Trie.Operacao.rem (str "casa") (str "d1")], op.termo ≠ []) ∧
    Trie.Invariante (Trie.aplicarOperacoes [Trie.Operacao.ins (str "casa") (str "d1"),
      Trie.Operacao.ins (str "cab") (str "d2"),
      Trie.Operacao.rem (str "casa") (str "d1")]) :=
  ⟨by decide, c5_invariante_trie _ (by decide)⟩

namespace Busca

/-- A character with no special role for the query scanner. -/
def CharSimples (c : Char) : Prop :=
  ehEspaco c = false ∧ c ≠ '"' ∧ c ≠ '(' ∧ c ≠ ')'

instance : DecidablePred CharSimples := fun c => by
  unfold CharSimples
  infer_instance

/-- A plain single-word search term: non-empty, made of ordinary
characters, not an operator keyword, and whose normalisation is non-empty
and not mistakable for an operator or parenthesis. -/
def PalavraSimples (t : Str) : Prop :=
  t ≠ [] ∧ (∀ c ∈ t, CharSimples c) ∧
  paraMaiusculas t ≠ str "AND" ∧ paraMaiusculas t ≠ str "OR" ∧
  limparTermo t ≠ [] ∧
  limparTermo t ≠ str "AND" ∧ limparTermo t ≠ str "OR" ∧
  limparTermo t ≠ str "(" ∧ limparTermo t ≠ str ")"

instance : DecidablePred PalavraSimples := fun t => by
  unfold PalavraSimples
  infer_instance

theorem varrer_espaco (s acc : Str) :
    varrer (' ' :: s) false acc = solta acc ++ varrer s false [] := rfl

theorem varrer_abre (s acc : Str) :
    varrer ('(' :: s) false acc = solta acc ++ [str "("] ++ varrer s false [] := rfl

theorem varrer_fecha (s acc : Str) :
    varrer (')' :: s) false acc = solta acc ++ [str ")"] ++ varrer s false [] := rfl

theorem varrer_fim (acc : Str) : varrer [] false acc = solta acc := rfl

theorem varrer_acum {w : Str} (s acc : Str) (hw : ∀ c ∈ w, CharSimples c) :
    varrer (w ++ s) false acc = varrer s false (acc ++ w) := by
  induction w generalizing acc with
  | nil => simp
  | cons c w ih =>
    obtain ⟨hs, hq, hp1, hp2⟩ := hw c (List.mem_cons_self _ _)
    simp only [List.cons_append, varrer, Bool.not_false, Bool.and_true]
    rw [if_neg (by simp [hq]), if_neg (by simp [hp1, hp2]), if_neg (by simp [hs])]
    show varrer (w ++ s) false (acc ++ [c]) = varrer s false (acc ++ c :: w)
    rw [ih (acc ++ [c]) (fun d hd => hw d (List.mem_cons_of_mem _ hd))]
    rw [List.append_assoc]
    rfl

theorem dropWhile_nao_espaco {l : Str} (h : ∀ c ∈ l, ehEspaco c = false) :
    l.dropWhile (ehEspaco ·) = l := by
  cases l with
  | nil => rfl
  | cons c r =>
    rw [List.dropWhile_cons]
    simp [h c (List.mem_cons_self _ _)]

theorem aparar_plano {l : Str} (h : ∀ c ∈ l, ehEspaco c = false) : aparar l = l := by
  unfold aparar
  rw [dropWhile_nao_espaco h,
    dropWhile_nao_espaco (fun c hc => h c (List.mem_reverse.mp hc)),
    List.reverse_reverse]

theorem solta_plano {l : Str} (hne : l ≠ []) (h : ∀ c ∈ l, ehEspaco c = false) :
    solta l = [l] := by
  simp only [solta]
  rw [aparar_plano h, if_neg hne]

theorem charSimples_nao_espaco {t : Str} (h : ∀ c ∈ t, CharSimples c) :
    ∀ c ∈ t, ehEspaco c = false := fun c hc => (h c hc).1

/-- Scanning `a b` for plain words gives the two raw tokens. -/
theorem varrer_dois {a b : Str} (ha : PalavraSimples a) (hb : PalavraSimples b) :
    varrer (a ++ str " " ++ b) false [] = [a, b] := by
  obtain ⟨hane, hac, _⟩ := ha
  obtain ⟨hbne, hbc, _⟩ := hb
  have hb2 : varrer b false [] = [b] := by
    conv_lhs => rw [show b = b ++ [] from (List.append_nil b).symm]
    rw [varrer_acum _ _ hbc, varrer_fim, List.nil_append,
      solta_plano hbne (charSimples_nao_espaco hbc)]
  rw [List.append_assoc, varrer_acum _ _ hac]
  show varrer (' ' :: b) false ([] ++ a) = [a, b]
  rw [List.nil_append, varrer_espaco, hb2, solta_plano hane (charSimples_nao_espaco hac)]
  rfl

/-- Scanning `a AND b` for plain words gives the three raw tokens. -/
theorem varrer_tres {a b : Str} (ha : PalavraSimples a) (hb : PalavraSimples b) :
    varrer (a ++ str " AND " ++ b) false [] = [a, str "AND", b] := by
  obtain ⟨hane, hac, _⟩ := ha
  obtain ⟨hbne, hbc, _⟩ := hb
  have hb2 : varrer b false [] = [b] := by
    conv_lhs => rw [show b = b ++ [] from (List.append_nil b).symm]
    rw [varrer_acum _ _ hbc, varrer_fim, List.nil_append,
      solta_plano hbne (charSimples_nao_espaco hbc)]
  rw [List.append_assoc, varrer_acum _ _ hac]
  show varrer (' ' :: (str "AND" ++ (' ' :: b))) false ([] ++ a) = [a, str "AND", b]
  rw [List.nil_append, varrer_espaco, varrer_acum _ _ (by decide)]
  show solta a ++ varrer (' ' :: b) false ([] ++ str "AND") = [a, str "AND", b]
  rw [List.nil_append, varrer_espaco, hb2, solta_plano hane (charSimples_nao_espaco hac),
    solta_plano (by decide) (by decide)]
  rfl

/-- Scanning `(a) b` for plain words gives four raw tokens and no AND. -/
theorem varrer_parens {a b : Str} (ha : PalavraSimples a) (hb : PalavraSimples b) :
    varrer (str "(" ++ a ++ str ") " ++ b) false [] = [str "(", a, str ")", b] := by
  obtain ⟨hane, hac, _⟩ := ha
  obtain ⟨hbne, hbc, _⟩ := hb
  have hb2 : varrer b false [] = [b] := by
    conv_lhs => rw [show b = b ++ [] from (List.append_nil b).symm]
    rw [varrer_acum _ _ hbc, varrer_fim, List.nil_append,
      solta_plano hbne (charSimples_nao_espaco hbc)]
  rw [List.append_assoc, List.append_assoc]
  show varrer ('(' :: (a ++ (')' :: ' ' :: b))) false [] = [str "(", a, str ")", b]
  rw [varrer_abre, varrer_acum _ _ hac]
  show solta [] ++ [str "("] ++ (varrer (')' :: ' ' :: b) false ([] ++ a))
      = [str "(", a, str ")", b]
  rw [List.nil_append, varrer_fecha, varrer_espaco, hb2,
    solta_plano hane (charSimples_nao_espaco hac)]
  rfl

/-- Normalising a plain word keeps it, cleaned. -/
theorem normalizar_palavra {t : Str} (hp : PalavraSimples t) (resto : List Str) :
    normalizarTokens (t :: resto) = limparTermo t :: normalizarTokens resto := by
  obtain ⟨hne, hc, hAND, hOR, hlne, _⟩ := hp
  have hta : t ≠ str "(" := by
    intro hh
    have hmem : '(' ∈ t := by
      rw [hh]
      exact List.mem_singleton_self _
    exact (hc '(' hmem).2.2.1 rfl
  have htf : t ≠ str ")" := by
    intro hh
    have hmem : ')' ∈ t := by
      rw [hh]
      exact List.mem_singleton_self _
    exact (hc ')' hmem).2.2.2 rfl
  simp only [normalizarTokens]
  rw [if_neg (by simp [hAND, hOR]), if_neg (by simp [hta, htf]), if_neg hlne]

end Busca

namespace Busca

theorem ehOperGrupo_falso {t : Str} (h1 : t ≠ str "AND") (h2 : t ≠ str "OR")
    (h3 : t ≠ str "(") (h4 : t ≠ str ")") : ehOperGrupo t = false := by
  simp [ehOperGrupo, h1, h2, h3, h4]

theorem ehOperFecha_falso {t : Str} (h1 : t ≠ str "AND") (h2 : t ≠ str "OR")
    (h4 : t ≠ str ")") : ehOperFecha t = false := by
  simp [ehOperFecha, h1, h2, h4]

theorem normalizar_AND (resto : List Str) :
    normalizarTokens (str "AND" :: resto) = str "AND" :: normalizarTokens resto := rfl

theorem normalizar_abre (resto : List Str) :
    normalizarTokens (str "(" :: resto) = str "(" :: normalizarTokens resto := rfl

theorem normalizar_fecha (resto : List Str) :
    normalizarTokens (str ")" :: resto) = str ")" :: normalizarTokens resto := rfl

theorem implicito_dois {x y : Str} (hx : ehOperGrupo x = false) (hy : ehOperFecha y = false) :
    inserirAndImplicito [x, y] = [x, str "AND", y] := by
  simp [inserirAndImplicito, hx, hy]

theorem implicito_tres_and {x y : Str} :
    inserirAndImplicito [x, str "AND", y] = [x, str "AND", y] := by
  have h1 : ehOperFecha (str "AND") = true := by decide
  have h2 : ehOperGrupo (str "AND") = true := by decide
  simp [inserirAndImplicito, h1, h2]

theorem implicito_parens {x y : Str} :
    inserirAndImplicito [str "(", x, str ")", y] = [str "(", x, str ")", y] := by
  have h1 : ehOperGrupo (str "(") = true := by decide
  have h2 : ehOperFecha (str ")") = true := by decide
  have h3 : ehOperGrupo (str ")") = true := by decide
  simp [inserirAndImplicito, h1, h2, h3]

/-- Spec-side description of the operand stack remaining after evaluating
all RPN tokens (head of the list is the top of the stack, last element is
the bottom, i.e. Python's `pilha[0]`). -/
def pilhaDepois (s : Indexador.Estado) : List Str → List (Finset Str) → List (Finset Str)
  | [], pilha => pilha
  | tok :: resto, pilha => pilhaDepois s resto (passoRpn s pilha tok)

theorem foldl_pilhaDepois (s : Indexador.Estado) :
    ∀ (tokens : List Str) (pilha : List (Finset Str)),
      List.foldl (passoRpn s) pilha tokens = pilhaDepois s tokens pilha := by
  intro tokens
  induction tokens with
  | nil => intro pilha; rfl
  | cons tok resto ih =>
    intro pilha
    rw [List.foldl_cons, pilhaDepois]
    exact ih _

theorem avaliarRpn_eq_fundo (s : Indexador.Estado) (tokens : List Str) :
    avaliarRpn s tokens = ((pilhaDepois s tokens []).getLast?).getD ∅ := by
  simp only [avaliarRpn]
  rw [foldl_pilhaDepois]

end Busca

/-- Index used by the C3 counterexample: two terms with distinct
single-document postings. -/
def exemploIndiceC3 : Indexador.Estado :=
  { Indexador.estadoInicial with
    postings := [(str "aaa", [(str "d1", 1)]), (str "bbb", [(str "d2", 1)])]
    indice_carregado := true }

/-- C3 (counterexample): the claim says `_avaliar_rpn` returns the top of
the operand stack also when a malformed expression leaves more than one
set on it.  On the RPN `["aaa", "bbb"]` the stack ends as two sets and the
code returns `pilha[0]` — the bottom, not the top. -/
theorem c3_contraexemplo :
    Busca.avaliarRpn exemploIndiceC3 [str "aaa", str "bbb"]
      ≠ ((Busca.pilhaDepois exemploIndiceC3 [str "aaa", str "bbb"] []).head?).getD ∅ := by
  decide

/-- C3 (amended): `_avaliar_rpn` returns the BOTTOM (first-pushed element,
Python's `pilha[0]`) of the operand stack remaining after evaluating all
tokens, or the empty set if that stack is empty. -/
theorem c3_avaliar_fundo (s : Indexador.Estado) (tokens : List Str) :
    Busca.avaliarRpn s tokens = ((Busca.pilhaDepois s tokens []).getLast?).getD ∅ :=
  Busca.avaliarRpn_eq_fundo s tokens

/-- C2 (counterexample): the claim implies `(a) b` tokenizes like
`(a) AND b`; the code only inserts an implicit AND when the LEFT token is
a plain term (never after `)`), so the two differ. -/
theorem c2_contraexemplo :
    Busca.tokenizarConsulta (str "(a) b") ≠ Busca.tokenizarConsulta (str "(a) AND b") := by
  decide

/-- C2 (amended): the implicit AND is inserted between adjacent tokens
when the left is a plain term (not an operator or either parenthesis) and
the right is a term or `(`: so `a b` tokenizes exactly like `a AND b`,
while `(a) b` keeps its four tokens with no AND inserted after `)`. -/
theorem c2_and_implicito (a b : Str)
    (ha : Busca.PalavraSimples a) (hb : Busca.PalavraSimples b) :
    Busca.tokenizarConsulta (a ++ str " " ++ b)
      = Busca.tokenizarConsulta (a ++ str " AND " ++ b) ∧
    Busca.tokenizarConsulta (str "(" ++ a ++ str ") " ++ b)
      = [str "(", Busca.limparTermo a, str ")", Busca.limparTermo b] := by
  obtain ⟨hane, hac, hA, hO, hlne, hlA, hlO, hlP, hlF⟩ := id ha
  obtain ⟨hbne, hbc, hbA, hbO, hblne, hblA, hblO, hblP, hblF⟩ := id hb
  have hga : Busca.ehOperGrupo (Busca.limparTermo a) = false :=
    Busca.ehOperGrupo_falso hlA hlO hlP hlF
  have hfb : Busca.ehOperFecha (Busca.limparTermo b) = false :=
    Busca.ehOperFecha_falso hblA hblO hblF
  constructor
  · simp only [Busca.tokenizarConsulta]
    rw [Busca.varrer_dois ha hb, Busca.varrer_tres ha hb,
      Busca.normalizar_palavra ha, Busca.normalizar_palavra ha, Busca.normalizar_AND,
      Busca.normalizar_palavra hb]
    show Busca.inserirAndImplicito [Busca.limparTermo a, Busca.limparTermo b]
      = Busca.inserirAndImplicito [Busca.limparTermo a, str "AND", Busca.limparTermo b]
    rw [Busca.implicito_dois hga hfb, Busca.implicito_tres_and]
  · simp only [Busca.tokenizarConsulta]
    rw [Busca.varrer_parens ha hb, Busca.normalizar_abre,
      Busca.normalizar_palavra ha, Busca.normalizar_fecha, Busca.normalizar_palavra hb]
    show Busca.inserirAndImplicito
        [str "(", Busca.limparTermo a, str ")", Busca.limparTermo b]
      = [str "(", Busca.limparTermo a, str ")", Busca.limparTermo b]
    exact Busca.implicito_parens

theorem c2_and_implicito_witness :
    Busca.PalavraSimples (str "cat") ∧ Busca.PalavraSimples (str "dog") ∧
    (Busca.tokenizarConsulta (str "cat" ++ str " " ++ str "dog")
      = Busca.tokenizarConsulta (str "cat" ++ str " AND " ++ str "dog") ∧
    Busca.tokenizarConsulta (str "(" ++ str "cat" ++ str ") " ++ str "dog")
      = [str "(", Busca.limparTermo (str "cat"), str ")", Busca.limparTermo (str "dog")]) :=
  ⟨by decide, by decide, c2_and_implicito (str "cat") (str "dog") (by decide) (by decide)⟩

namespace Indexador

/-- All frequency values of a term's postings, in order
(`list(docs_tf.values())`). -/
def valoresTf (s : Estado) (termo : Str) : List Nat :=
  ((procurar s.postings termo).getD []).map Prod.snd

/-- Population mean over the frequency values (the spec's wording). -/
noncomputable def mediaEspec (l : List Nat) : ℝ :=
  (l.map (fun n : Nat => (n : ℝ))).sum / l.length

/-- Population variance over the frequency values (the spec's wording). -/
noncomputable def varEspec (l : List Nat) : ℝ :=
  ((l.map (fun n : Nat => (n : ℝ))).map (fun v => (v - mediaEspec l) ^ 2)).sum / l.length

theorem lista_soma_zero {l : List ℝ} (h : ∀ x ∈ l, 0 ≤ x) (hs : l.sum = 0) :
    ∀ x ∈ l, x = 0 := by
  induction l with
  | nil => simp
  | cons a r ih =>
    rw [List.sum_cons] at hs
    have ha := h a (List.mem_cons_self _ _)
    have hr : 0 ≤ r.sum := List.sum_nonneg (fun x hx => h x (List.mem_cons_of_mem _ hx))
    have ha0 : a = 0 := by linarith
    have hs0 : r.sum = 0 := by linarith
    intro x hx
    rcases List.mem_cons.mp hx with hx | hx
    · rw [hx, ha0]
    · exact ih (fun y hy => h y (List.mem_cons_of_mem _ hy)) hs0 x hx

theorem soma_constante {l : List ℝ} {c : ℝ} (h : ∀ x ∈ l, x = c) :
    l.sum = l.length * c := by
  induction l with
  | nil => simp
  | cons a r ih =>
    rw [List.sum_cons, ih (fun x hx => h x (List.mem_cons_of_mem _ hx)),
      h a (List.mem_cons_self _ _)]
    simp only [List.length_cons]
    push_cast
    ring

theorem varEspec_nonneg (l : List Nat) : 0 ≤ varEspec l := by
  unfold varEspec
  apply div_nonneg
  · apply List.sum_nonneg
    intro x hx
    rcases List.mem_map.mp hx with ⟨w, _, hw⟩
    rw [← hw]
    exact sq_nonneg _
  · exact Nat.cast_nonneg _

/-- Zero population variance characterises equal frequency values. -/
theorem varEspec_zero_iff {l : List Nat} (hl : l ≠ []) :
    varEspec l = 0 ↔ ∀ x ∈ l, ∀ y ∈ l, x = y := by
  have hlen0 : l.length ≠ 0 := fun hh => hl (List.length_eq_zero.mp hh)
  have hlen : (l.length : ℝ) ≠ 0 := Nat.cast_ne_zero.mpr hlen0
  constructor
  · intro hv x hx y hy
    have hsum : ((l.map (fun n : Nat => (n : ℝ))).map (fun v => (v - mediaEspec l) ^ 2)).sum = 0 := by
      unfold varEspec at hv
      rcases div_eq_zero_iff.mp hv with h | h
      · exact h
      · exact absurd h hlen
    have hall := lista_soma_zero (l := (l.map (fun n : Nat => (n : ℝ))).map
        (fun v => (v - mediaEspec l) ^ 2)) ?_ hsum
    · have hx0 : ((x : ℝ) - mediaEspec l) ^ 2 = 0 :=
        hall _ (List.mem_map_of_mem (fun v : ℝ => (v - mediaEspec l) ^ 2)
          (List.mem_map_of_mem (fun n : Nat => (n : ℝ)) hx))
      have hy0 : ((y : ℝ) - mediaEspec l) ^ 2 = 0 :=
        hall _ (List.mem_map_of_mem (fun v : ℝ => (v - mediaEspec l) ^ 2)
          (List.mem_map_of_mem (fun n : Nat => (n : ℝ)) hy))
      have hx1 : (x : ℝ) = mediaEspec l := by
        have h2 := (pow_eq_zero_iff two_ne_zero).mp hx0
        linarith [h2]
      have hy1 : (y : ℝ) = mediaEspec l := by
        have h2 := (pow_eq_zero_iff two_ne_zero).mp hy0
        linarith [h2]
      exact_mod_cast hx1.trans hy1.symm
    · intro v hv2
      rcases List.mem_map.mp hv2 with ⟨w, _, hw⟩
      rw [← hw]
      exact sq_nonneg _
  · intro hall
    cases l with
    | nil => exact absurd rfl hl
    | cons a r =>
      have hc : ∀ v ∈ (a :: r).map (fun n : Nat => (n : ℝ)), v = (a : ℝ) := by
        intro v hv
        rcases List.mem_map.mp hv with ⟨w, hw, he⟩
        rw [← he]
        exact_mod_cast Nat.cast_inj.mpr (hall w hw a (List.mem_cons_self _ _))
      have hmedia : mediaEspec (a :: r) = (a : ℝ) := by
        unfold mediaEspec
        rw [soma_constante hc, List.length_map]
        field_simp
      unfold varEspec
      rw [List.sum_eq_zero, zero_div]
      intro v hv
      rcases List.mem_map.mp hv with ⟨w, hw, he⟩
      rw [← he, hmedia]
      rw [hc w hw]
      ring

end Indexador

/-- C7: `calcular_zscore` returns 0 when the term has no postings or all
its frequency values are equal (zero population standard deviation, which
includes terms occurring in exactly one document); otherwise it returns
`(freq - mean) / stddev` computed over the frequency values of the
documents containing the term, where `freq` defaults to 0 when the
document is absent from the term's postings. -/
theorem c7_zscore (s : Indexador.Estado) (termo documento : Str) :
    Indexador.calcular_zscore s termo documento =
      if (procurar s.postings termo).getD [] = [] ∨
          (∀ x ∈ Indexador.valoresTf s termo, ∀ y ∈ Indexador.valoresTf s termo, x = y) then 0
      else
        ((((procurar ((procurar s.postings termo).getD []) documento).getD 0 : Nat) : ℝ)
            - Indexador.mediaEspec (Indexador.valoresTf s termo))
          / Real.sqrt (Indexador.varEspec (Indexador.valoresTf s termo)) := by
  simp only [Indexador.calcular_zscore]
  by_cases hnil : (procurar s.postings termo).getD [] = []
  · rw [if_pos hnil, if_pos (Or.inl hnil)]
  · rw [if_neg hnil]
    set l := (procurar s.postings termo).getD [] with hldef
    have hvals : l.map (fun p : Str × Nat => ((p.2 : Nat) : ℝ))
        = (Indexador.valoresTf s termo).map (fun n : Nat => (n : ℝ)) := by
      rw [Indexador.valoresTf, ← hldef, List.map_map]
      rfl
    have hvne : Indexador.valoresTf s termo ≠ [] := by
      rw [Indexador.valoresTf, ← hldef]
      intro hh
      exact hnil (List.map_eq_nil.mp hh)
    have hM : (l.map (fun p : Str × Nat => ((p.2 : Nat) : ℝ))).sum
        / ((l.map (fun p : Str × Nat => ((p.2 : Nat) : ℝ))).length : ℝ)
        = Indexador.mediaEspec (Indexador.valoresTf s termo) := by
      rw [Indexador.mediaEspec, hvals, List.length_map]
    rw [hM]
    have hV : ((l.map (fun p : Str × Nat => ((p.2 : Nat) : ℝ))).map
          (fun v => (v - Indexador.mediaEspec (Indexador.valoresTf s termo)) ^ 2)).sum
        / ((l.map (fun p : Str × Nat => ((p.2 : Nat) : ℝ))).length : ℝ)
        = Indexador.varEspec (Indexador.valoresTf s termo) := by
      rw [Indexador.varEspec, hvals, List.length_map]
    rw [hV]
    by_cases heq : ∀ x ∈ Indexador.valoresTf s termo, ∀ y ∈ Indexador.valoresTf s termo, x = y
    · have hv0 : Indexador.varEspec (Indexador.valoresTf s termo) = 0 :=
        (Indexador.varEspec_zero_iff hvne).mpr heq
      rw [hv0, if_neg (lt_irrefl 0), if_pos rfl, if_pos (Or.inr heq)]
    · have hv0 : Indexador.varEspec (Indexador.valoresTf s termo) ≠ 0 :=
        fun hh => heq ((Indexador.varEspec_zero_iff hvne).mp hh)
      have hvpos : 0 < Indexador.varEspec (Indexador.valoresTf s termo) :=
        lt_of_le_of_ne (Indexador.varEspec_nonneg _) (Ne.symm hv0)
      have hs2 : Real.sqrt (Indexador.varEspec (Indexador.valoresTf s termo)) ≠ 0 :=
        ne_of_gt (Real.sqrt_pos.mpr hvpos)
      rw [if_pos hvpos, if_neg hs2, if_neg (not_or.mpr ⟨hnil, heq⟩)]

namespace Busca

theorem nao_grupo {t : Str} (h : ehOperGrupo t = false) :
    (t == str "AND") = false ∧ (t == str "OR") = false ∧
    (t == str "(") = false ∧ (t == str ")") = false := by
  simp only [ehOperGrupo, Bool.or_eq_false_iff] at h
  exact ⟨h.1.1.1, h.1.1.2, h.1.2, h.2⟩

/-- Scanning a lone plain word gives one raw token. -/
theorem varrer_palavra {a : Str} (ha : PalavraSimples a) :
    varrer a false [] = [a] := by
  obtain ⟨hane, hac, _⟩ := id ha
  conv_lhs => rw [show a = a ++ [] from (List.append_nil a).symm]
  rw [varrer_acum _ _ hac, varrer_fim, List.nil_append,
    solta_plano hane (charSimples_nao_espaco hac)]

/-- Scanning `a OR b` for plain words gives the three raw tokens. -/
theorem varrer_tres_or {a b : Str} (ha : PalavraSimples a) (hb : PalavraSimples b) :
    varrer (a ++ str " OR " ++ b) false [] = [a, str "OR", b] := by
  obtain ⟨hane, hac, _⟩ := id ha
  obtain ⟨hbne, hbc, _⟩ := id hb
  have hb2 : varrer b false [] = [b] := varrer_palavra hb
  rw [List.append_assoc, varrer_acum _ _ hac]
  show varrer (' ' :: (str "OR" ++ (' ' :: b))) false ([] ++ a) = [a, str "OR", b]
  rw [List.nil_append, varrer_espaco, varrer_acum _ _ (by decide)]
  show solta a ++ varrer (' ' :: b) false ([] ++ str "OR") = [a, str "OR", b]
  rw [List.nil_append, varrer_espaco, hb2, solta_plano hane (charSimples_nao_espaco hac),
    solta_plano (by decide) (by decide)]
  rfl

theorem normalizar_OR (resto : List Str) :
    normalizarTokens (str "OR" :: resto) = str "OR" :: normalizarTokens resto := rfl

theorem implicito_tres_or {x y : Str} :
    inserirAndImplicito [x, str "OR", y] = [x, str "OR", y] := by
  have h1 : ehOperFecha (str "OR") = true := by decide
  have h2 : ehOperGrupo (str "OR") = true := by decide
  simp [inserirAndImplicito, h1, h2]

/-- Tokenizing a lone plain word. -/
theorem tokenizar_palavra {a : Str} (ha : PalavraSimples a) :
    tokenizarConsulta a = [limparTermo a] := by
  simp only [tokenizarConsulta]
  rw [varrer_palavra ha, normalizar_palavra ha]
  rfl

/-- Tokenizing `a AND b` for plain words. -/
theorem tokenizar_and {a b : Str} (ha : PalavraSimples a) (hb : PalavraSimples b) :
    tokenizarConsulta (a ++ str " AND " ++ b)
      = [limparTermo a, str "AND", limparTermo b] := by
  simp only [tokenizarConsulta]
  rw [varrer_tres ha hb, normalizar_palavra ha, normalizar_AND, normalizar_palavra hb]
  exact implicito_tres_and

/-- Tokenizing `a OR b` for plain words. -/
theorem tokenizar_or {a b : Str} (ha : PalavraSimples a) (hb : PalavraSimples b) :
    tokenizarConsulta (a ++ str " OR " ++ b)
      = [limparTermo a, str "OR", limparTermo b] := by
  simp only [tokenizarConsulta]
  rw [varrer_tres_or ha hb, normalizar_palavra ha, normalizar_OR, normalizar_palavra hb]
  exact implicito_tres_or

/-- Shunting-yard on a single plain term. -/
theorem paraRpn_termo {x : Str} (hx : ehOperGrupo x = false) :
    paraRpn [x] = [x] := by
  obtain ⟨hx1, hx2, hx3, hx4⟩ := nao_grupo hx
  simp [paraRpn, paraRpnAux, hx1, hx2, hx3, hx4]

/-- Shunting-yard on `x AND y` with plain terms. -/
theorem paraRpn_and {x y : Str} (hx : ehOperGrupo x = false) (hy : ehOperGrupo y = false) :
    paraRpn [x, str "AND", y] = [x, y, str "AND"] := by
  obtain ⟨hx1, hx2, hx3, hx4⟩ := nao_grupo hx
  obtain ⟨hy1, hy2, hy3, hy4⟩ := nao_grupo hy
  simp [paraRpn, paraRpnAux, despejarOper, hx1, hx2, hx3, hx4, hy1, hy2, hy3, hy4,
    show ¬str "AND" = str "(" by decide, show ¬str "AND" = str ")" by decide]

/-- Shunting-yard on `x OR y` with plain terms. -/
theorem paraRpn_or {x y : Str} (hx : ehOperGrupo x = false) (hy : ehOperGrupo y = false) :
    paraRpn [x, str "OR", y] = [x, y, str "OR"] := by
  obtain ⟨hx1, hx2, hx3, hx4⟩ := nao_grupo hx
  obtain ⟨hy1, hy2, hy3, hy4⟩ := nao_grupo hy
  simp [paraRpn, paraRpnAux, despejarOper, hx1, hx2, hx3, hx4, hy1, hy2, hy3, hy4,
    show ¬str "OR" = str "(" by decide, show ¬str "OR" = str ")" by decide,
    show ¬str "OR" = str "AND" by decide]

/-- Evaluating the RPN of a single term. -/
theorem avaliar_termo {s : Indexador.Estado} {x : Str} (hx : ehOperGrupo x = false) :
    avaliarRpn s [x] = obterDocs s x := by
  obtain ⟨hx1, hx2, _, _⟩ := nao_grupo hx
  simp [avaliarRpn, passoRpn, hx1, hx2]

/-- Evaluating the RPN `x y AND`. -/
theorem avaliar_and {s : Indexador.Estado} {x y : Str}
    (hx : ehOperGrupo x = false) (hy : ehOperGrupo y = false) :
    avaliarRpn s [x, y, str "AND"] = obterDocs s x ∩ obterDocs s y := by
  obtain ⟨hx1, hx2, _, _⟩ := nao_grupo hx
  obtain ⟨hy1, hy2, _, _⟩ := nao_grupo hy
  simp [avaliarRpn, passoRpn, hx1, hx2, hy1, hy2]

/-- Evaluating the RPN `x y OR`. -/
theorem avaliar_or {s : Indexador.Estado} {x y : Str}
    (hx : ehOperGrupo x = false) (hy : ehOperGrupo y = false) :
    avaliarRpn s [x, y, str "OR"] = obterDocs s x ∪ obterDocs s y := by
  obtain ⟨hx1, hx2, _, _⟩ := nao_grupo hx
  obtain ⟨hy1, hy2, _, _⟩ := nao_grupo hy
  simp [avaliarRpn, passoRpn, hx1, hx2, hy1, hy2,
    show ¬str "OR" = str "AND" by decide]

/-- The ranking step preserves the set of documents (sorting is a
permutation and each entry keeps its document id). -/
theorem docs_relevancia (s : Indexador.Estado) (documentos : List Str) (consulta : Str) :
    ((calcular_relevancia s documentos consulta).map Resultado.documento).toFinset
      = documentos.toFinset := by
  simp only [calcular_relevancia]
  rw [List.toFinset_eq_of_perm _ _
    ((List.perm_insertionSort (fun (a b : Resultado) => b.relevancia ≤ a.relevancia) _).map
      Resultado.documento)]
  rw [List.map_map]
  show (documentos.map (fun doc => doc)).toFinset = documentos.toFinset
  rw [show documentos.map (fun doc => doc) = documentos from List.map_id _]

/-- The set of document ids returned by `buscar`. -/
noncomputable def docsDe (s : Indexador.Estado) (consulta : Str) : Finset Str :=
  ((buscar s consulta).map Resultado.documento).toFinset

theorem docsDe_carregado {s : Indexador.Estado} (h : s.indice_carregado = true)
    (consulta : Str) :
    docsDe s consulta = avaliarRpn s (paraRpn (tokenizarConsulta consulta)) := by
  simp only [docsDe, buscar, processar_consulta, if_pos h]
  rw [docs_relevancia]
  exact Finset.toList_toFinset _

end Busca

/-- C8: for a loaded index and plain single-word terms, the documents
returned by `buscar("a AND b")` form a subset of the intersection of the
documents of `buscar("a")` and `buscar("b")`, and the documents of
`buscar("a OR b")` include each of those sets. -/
theorem c8_algebra_booleana (s : Indexador.Estado) (a b : Str)
    (hcar : s.indice_carregado = true)
    (ha : Busca.PalavraSimples a) (hb : Busca.PalavraSimples b) :
    Busca.docsDe s (a ++ str " AND " ++ b) ⊆ Busca.docsDe s a ∩ Busca.docsDe s b ∧
    Busca.docsDe s a ⊆ Busca.docsDe s (a ++ str " OR " ++ b) ∧
    Busca.docsDe s b ⊆ Busca.docsDe s (a ++ str " OR " ++ b) := by
  obtain ⟨-, -, -, -, -, hlA, hlO, hlP, hlF⟩ := id ha
  obtain ⟨-, -, -, -, -, hblA, hblO, hblP, hblF⟩ := id hb
  have hga : Busca.ehOperGrupo (Busca.limparTermo a) = false :=
    Busca.ehOperGrupo_falso hlA hlO hlP hlF
  have hgb : Busca.ehOperGrupo (Busca.limparTermo b) = false :=
    Busca.ehOperGrupo_falso hblA hblO hblP hblF
  have hAq : Busca.docsDe s (a ++ str " AND " ++ b)
      = Busca.obterDocs s (Busca.limparTermo a) ∩ Busca.obterDocs s (Busca.limparTermo b) := by
    rw [Busca.docsDe_carregado hcar, Busca.tokenizar_and ha hb, Busca.paraRpn_and hga hgb,
      Busca.avaliar_and hga hgb]
  have hOq : Busca.docsDe s (a ++ str " OR " ++ b)
      = Busca.obterDocs s (Busca.limparTermo a) ∪ Busca.obterDocs s (Busca.limparTermo b) := by
    rw [Busca.docsDe_carregado hcar, Busca.tokenizar_or ha hb, Busca.paraRpn_or hga hgb,
      Busca.avaliar_or hga hgb]
  have ha1 : Busca.docsDe s a = Busca.obterDocs s (Busca.limparTermo a) := by
    rw [Busca.docsDe_carregado hcar, Busca.tokenizar_palavra ha, Busca.paraRpn_termo hga,
      Busca.avaliar_termo hga]
  have hb1 : Busca.docsDe s b = Busca.obterDocs s (Busca.limparTermo b) := by
    rw [Busca.docsDe_carregado hcar, Busca.tokenizar_palavra hb, Busca.paraRpn_termo hgb,
      Busca.avaliar_termo hgb]
  refine ⟨?_, ?_, ?_⟩
  · rw [hAq, ha1, hb1]
  · rw [hOq, ha1]
    exact Finset.subset_union_left
  · rw [hOq, hb1]
    exact Finset.subset_union_right

theorem c8_algebra_booleana_witness :
    ({ Indexador.estadoInicial with indice_carregado := true } : Indexador.Estado).indice_carregado
        = true ∧
    Busca.PalavraSimples (str "cat") ∧ Busca.PalavraSimples (str "dog") ∧
    (Busca.docsDe { Indexador.estadoInicial with indice_carregado := true }
        (str "cat" ++ str " AND " ++ str "dog")
      ⊆ Busca.docsDe { Indexador.estadoInicial with indice_carregado := true } (str "cat")
        ∩ Busca.docsDe { Indexador.estadoInicial with indice_carregado := true } (str "dog") ∧
    Busca.docsDe { Indexador.estadoInicial with indice_carregado := true } (str "cat")
      ⊆ Busca.docsDe { Indexador.estadoInicial with indice_carregado := true }
        (str "cat" ++ str " OR " ++ str "dog") ∧
    Busca.docsDe { Indexador.estadoInicial with indice_carregado := true } (str "dog")
      ⊆ Busca.docsDe { Indexador.estadoInicial with indice_carregado := true }
        (str "cat" ++ str " OR " ++ str "dog")) :=
  ⟨rfl, by decide, by decide,
    c8_algebra_booleana _ (str "cat") (str "dog") rfl (by decide) (by decide)⟩

namespace Indexador

theorem agruparAux_alfanum :
    ∀ (s acc : Str), (∀ c ∈ acc, ehAlfaNum c = true) →
      ∀ t ∈ agruparAux s acc, ∀ c ∈ t, ehAlfaNum c = true := by
  intro s
  induction s with
  | nil =>
    intro acc hacc t ht c hc
    by_cases hne : acc = []
    · simp [agruparAux, hne] at ht
    · simp only [agruparAux, if_neg hne, List.mem_singleton] at ht
      subst ht
      exact hacc c hc
  | cons d r ih =>
    intro acc hacc t ht c hc
    by_cases hd : ehAlfaNum d = true
    · rw [agruparAux, if_pos hd] at ht
      refine ih (acc ++ [d]) ?_ t ht c hc
      intro e he
      rcases List.mem_append.mp he with he | he
      · exact hacc e he
      · rw [List.mem_singleton] at he
        subst he
        exact hd
    · have hd2 : ¬(ehAlfaNum d = true) := hd
      rw [agruparAux, if_neg hd2] at ht
      by_cases hne : acc = []
      · rw [if_pos hne] at ht
        exact ih [] (by simp) t ht c hc
      · rw [if_neg hne] at ht
        rcases List.mem_cons.mp ht with ht | ht
        · subst ht
          exact hacc c hc
        · exact ih [] (by simp) t ht c hc

theorem tokenizar_alfanum {texto : Str} :
    ∀ t ∈ tokenizar texto, ∀ c ∈ t, ehAlfaNum c = true := by
  intro t ht
  simp only [tokenizar, List.mem_filter] at ht
  exact agruparAux_alfanum _ [] (by simp) t ht.1

theorem contar_chaves {P : Str → Prop} {ts : List Str} (h : ∀ t ∈ ts, P t) :
    ∀ p ∈ contar ts, P p.1 := by
  suffices hgen : ∀ (l : List Str) (acc : List (Str × Nat)), (∀ t ∈ l, P t) →
      (∀ p ∈ acc, P p.1) →
      ∀ p ∈ l.foldl (fun acc t => gravar acc t ((procurar acc t).getD 0 + 1)) acc, P p.1 by
    exact hgen ts [] h (by simp)
  intro l
  induction l with
  | nil => intro acc _ hacc p hp; exact hacc p hp
  | cons t r ih =>
    intro acc hl hacc p hp
    rw [List.foldl_cons] at hp
    refine ih _ (fun u hu => hl u (List.mem_cons_of_mem _ hu)) ?_ p hp
    intro q hq
    rcases mem_gravar hq with hq | hq
    · rw [hq]
      exact hl t (List.mem_cons_self _ _)
    · exact hacc q hq

theorem fold_postings_chaves {P : Str → Prop} (caminho : Str) :
    ∀ (l : List (Str × Nat)) (init : Trie.No × List (Str × List (Str × Nat))),
      (∀ q ∈ l, P q.1) → (∀ p ∈ init.2, P p.1) →
      ∀ p ∈ (l.foldl (fun (par : Trie.No × List (Str × List (Str × Nat))) tf =>
          (Trie.inserir par.1 tf.1 caminho,
           gravar par.2 tf.1 (gravar ((procurar par.2 tf.1).getD []) caminho
             ((procurar ((procurar par.2 tf.1).getD []) caminho).getD 0 + tf.2)))) init).2,
        P p.1 := by
  intro l
  induction l with
  | nil => intro init _ hinit p hp; exact hinit p hp
  | cons q r ih =>
    intro init hl hinit p hp
    rw [List.foldl_cons] at hp
    refine ih _ (fun u hu => hl u (List.mem_cons_of_mem _ hu)) ?_ p hp
    intro u hu
    rcases mem_gravar hu with hu | hu
    · rw [hu]
      exact hl q (List.mem_cons_self _ _)
    · exact hinit u hu

theorem indexar_documento_chaves {s : Estado} {P : Str → Prop}
    (hs : ∀ p ∈ s.postings, P p.1) {caminho conteudo : Str}
    (htoks : ∀ t ∈ tokenizar conteudo, P t) :
    ∀ p ∈ (indexar_documento s caminho conteudo).postings, P p.1 := by
  simp only [indexar_documento]
  exact fold_postings_chaves caminho _ _ (contar_chaves htoks) hs

/-- A corpus ingested document by document via `indexar_documento`,
starting from the fresh index. -/
def indexarTodos (docs : List (Str × Str)) : Estado :=
  docs.foldl (fun s par => indexar_documento s par.1 par.2) estadoInicial

/-- Every postings key of an ingested index is purely alphanumeric. -/
theorem indexarTodos_chaves (docs : List (Str × Str)) :
    ∀ p ∈ (indexarTodos docs).postings, ∀ c ∈ p.1, ehAlfaNum c = true := by
  suffices hgen : ∀ (l : List (Str × Str)) (init : Estado),
      (∀ p ∈ init.postings, ∀ c ∈ p.1, ehAlfaNum c = true) →
      ∀ p ∈ (l.foldl (fun s par => indexar_documento s par.1 par.2) init).postings,
        ∀ c ∈ p.1, ehAlfaNum c = true by
    exact hgen docs estadoInicial (by simp [estadoInicial])
  intro l
  induction l with
  | nil => intro init hinit p hp; exact hinit p hp
  | cons d r ih =>
    intro init hinit p hp
    rw [List.foldl_cons] at hp
    refine ih _ ?_ p hp
    exact indexar_documento_chaves hinit (fun t ht => tokenizar_alfanum t ht)

theorem alfaNum_nao_espaco {c : Char} (h : ehAlfaNum c = true) : ehEspaco c = false := by
  by_contra hh
  have he : ehEspaco c = true := by
    cases hhe : ehEspaco c
    · exact absurd hhe hh
    · rfl
  simp only [ehEspaco, Bool.or_eq_true, beq_iff_eq] at he
  rcases he with ((((h1 | h1) | h1) | h1) | h1) | h1 <;> subst h1 <;>
    exact absurd h (by decide)

end Indexador

namespace Busca

theorem varrer_aspa_abre (s acc : Str) :
    varrer ('"' :: s) false acc = solta acc ++ varrer s true [] := rfl

theorem varrer_aspa_fecha (s acc : Str) :
    varrer ('"' :: s) true acc = solta acc ++ varrer s false [] := rfl

theorem varrer_acum_citado {w : Str} (s acc : Str) (hw : ∀ c ∈ w, c ≠ '"') :
    varrer (w ++ s) true acc = varrer s true (acc ++ w) := by
  induction w generalizing acc with
  | nil => simp
  | cons c w ih =>
    have hq := hw c (List.mem_cons_self _ _)
    simp only [List.cons_append, varrer, Bool.not_true, Bool.and_false]
    rw [if_neg (by simp [hq]), if_neg (by simp), if_neg (by simp)]
    show varrer (w ++ s) true (acc ++ [c]) = varrer s true (acc ++ c :: w)
    rw [ih (acc ++ [c]) (fun d hd => hw d (List.mem_cons_of_mem _ hd))]
    rw [List.append_assoc]
    rfl

/-- Scanning a quoted phrase yields the stripped phrase as a single raw
token (quotes toggle the mode; nothing inside is special). -/
theorem varrer_frase {p : Str} (hq : '"' ∉ p) :
    varrer ('"' :: (p ++ ['"'])) false [] = solta p := by
  rw [varrer_aspa_abre, varrer_acum_citado _ _ (fun c hc hh => hq (hh ▸ hc))]
  show solta [] ++ varrer ['"'] true ([] ++ p) = solta p
  rw [List.nil_append, varrer_aspa_fecha]
  show [] ++ (solta p ++ varrer [] false []) = solta p
  rw [List.nil_append]
  show solta p ++ solta [] = solta p
  rw [show solta [] = [] from rfl, List.append_nil]

theorem espaco_toUpper {c : Char} (h : ehEspaco c = true) : c.toUpper = c := by
  simp only [ehEspaco, Bool.or_eq_true, beq_iff_eq] at h
  rcases h with ((((h1 | h1) | h1) | h1) | h1) | h1 <;> subst h1 <;> decide

theorem espaco_toLower {c : Char} (h : ehEspaco c = true) : c.toLower = c := by
  simp only [ehEspaco, Bool.or_eq_true, beq_iff_eq] at h
  rcases h with ((((h1 | h1) | h1) | h1) | h1) | h1 <;> subst h1 <;> decide

/-- A whitespace character of a token survives `limparTermo`. -/
theorem espaco_em_limpar {t : Str} {c : Char} (hc : c ∈ t) (he : ehEspaco c = true) :
    c ∈ limparTermo t := by
  refine List.mem_filter.mpr ⟨?_, by simp [he]⟩
  exact List.mem_map.mpr ⟨c, hc, espaco_toLower he⟩

theorem espaco_nao_igual {t : Str} {c : Char} (w : String) (hc : c ∈ t)
    (hce : ehEspaco c = true) (hw : ∀ d ∈ str w, ehEspaco d = false) : t ≠ str w := by
  intro hh
  rw [hh] at hc
  rw [hw c hc] at hce
  cases hce

/-- A token containing whitespace is never an operator or parenthesis. -/
theorem oper_grupo_frase {t : Str} (hesp : ∃ c ∈ t, ehEspaco c = true) :
    ehOperGrupo t = false := by
  obtain ⟨c, hc, hce⟩ := hesp
  exact ehOperGrupo_falso (espaco_nao_igual _ hc hce (by decide))
    (espaco_nao_igual _ hc hce (by decide))
    (espaco_nao_igual _ hc hce (by decide))
    (espaco_nao_igual _ hc hce (by decide))

/-- Normalising a token that contains whitespace keeps it (cleaned). -/
theorem normalizar_frase {t : Str} (hesp : ∃ c ∈ t, ehEspaco c = true) :
    normalizarTokens [t] = [limparTermo t] := by
  obtain ⟨c, hc, hce⟩ := hesp
  have hA : paraMaiusculas t ≠ str "AND" := by
    refine espaco_nao_igual _ (List.mem_map.mpr ⟨c, hc, espaco_toUpper hce⟩) hce (by decide)
  have hO : paraMaiusculas t ≠ str "OR" := by
    refine espaco_nao_igual _ (List.mem_map.mpr ⟨c, hc, espaco_toUpper hce⟩) hce (by decide)
  have hP : t ≠ str "(" := espaco_nao_igual _ hc hce (by decide)
  have hF : t ≠ str ")" := espaco_nao_igual _ hc hce (by decide)
  have hlne : limparTermo t ≠ [] := List.ne_nil_of_mem (espaco_em_limpar hc hce)
  simp only [normalizarTokens]
  rw [if_neg (by simp [hA, hO]), if_neg (by simp [hP, hF]), if_neg hlne]

theorem relevancia_nil (s : Indexador.Estado) (consulta : Str) :
    calcular_relevancia s [] consulta = [] := by
  simp [calcular_relevancia]

end Busca

/-- C9: a quoted multi-word phrase survives tokenization as a single token
that still contains whitespace; every postings key built by
`indexar_documento` is purely alphanumeric, so the phrase's postings
lookup is empty and `buscar` returns the empty result list. -/
theorem c9_frase_citada (docs : List (Str × Str)) (b : Bool) (p : Str)
    (hesp : ∃ c ∈ aparar p, ehEspaco c = true) (hq : '"' ∉ p) :
    Busca.tokenizarConsulta ('"' :: (p ++ ['"']))
      = [Busca.limparTermo (aparar p)] ∧
    (∃ c ∈ Busca.limparTermo (aparar p), ehEspaco c = true) ∧
    Indexador.obter_postings
      { Indexador.indexarTodos docs with indice_carregado := b }
      (Busca.limparTermo (aparar p)) = [] ∧
    Busca.buscar { Indexador.indexarTodos docs with indice_carregado := b }
      ('"' :: (p ++ ['"'])) = [] := by
  obtain ⟨c, hc, hce⟩ := hesp
  have hne : aparar p ≠ [] := List.ne_nil_of_mem hc
  have htok : Busca.tokenizarConsulta ('"' :: (p ++ ['"']))
      = [Busca.limparTermo (aparar p)] := by
    simp only [Busca.tokenizarConsulta]
    rw [Busca.varrer_frase hq]
    rw [show Busca.solta p = [aparar p] from by simp only [Busca.solta]; rw [if_neg hne]]
    rw [Busca.normalizar_frase ⟨c, hc, hce⟩]
    rfl
  have hespLt : ∃ d ∈ Busca.limparTermo (aparar p), ehEspaco d = true :=
    ⟨c, Busca.espaco_em_limpar hc hce, hce⟩
  have hpost : Indexador.obter_postings
      { Indexador.indexarTodos docs with indice_carregado := b }
      (Busca.limparTermo (aparar p)) = [] := by
    have hnone : procurar (Indexador.indexarTodos docs).postings
        (Busca.limparTermo (aparar p)) = none := by
      apply procurar_nao_membro
      intro hmem
      rcases Trie.mem_chaves hmem with ⟨v, hv⟩
      obtain ⟨d, hd, hde⟩ := hespLt
      have halfa := Indexador.indexarTodos_chaves docs _ hv d hd
      rw [Indexador.alfaNum_nao_espaco halfa] at hde
      cases hde
    simp only [Indexador.obter_postings]
    rw [show ({ Indexador.indexarTodos docs with indice_carregado := b } :
        Indexador.Estado).postings = (Indexador.indexarTodos docs).postings from rfl, hnone]
    rfl
  refine ⟨htok, hespLt, hpost, ?_⟩
  have hdocs : Busca.obterDocs { Indexador.indexarTodos docs with indice_carregado := b }
      (Busca.limparTermo (aparar p)) = ∅ := by
    simp [Busca.obterDocs, hpost]
  simp only [Busca.buscar, Busca.processar_consulta]
  cases b with
  | false =>
    rw [if_neg (show ¬(({ Indexador.indexarTodos docs with indice_carregado := false } :
      Indexador.Estado).indice_carregado = true) from fun hh => Bool.false_ne_true hh)]
    exact Busca.relevancia_nil _ _
  | true =>
    rw [if_pos (show ({ Indexador.indexarTodos docs with indice_carregado := true } :
      Indexador.Estado).indice_carregado = true from rfl)]
    rw [htok, Busca.paraRpn_termo (Busca.oper_grupo_frase hespLt),
      Busca.avaliar_termo (Busca.oper_grupo_frase hespLt), hdocs]
    rw [show (∅ : Finset Str).toList = [] from Finset.toList_empty]
    exact Busca.relevancia_nil _ _

theorem c9_frase_citada_witness :
    (∃ c ∈ aparar (str "climate change"), ehEspaco c = true) ∧
    '"' ∉ str "climate change" ∧
    (Busca.tokenizarConsulta ('"' :: (str "climate change" ++ ['"']))
      = [Busca.limparTermo (aparar (str "climate change"))] ∧
    (∃ c ∈ Busca.limparTermo (aparar (str "climate change")), ehEspaco c = true) ∧
    Indexador.obter_postings
      { Indexador.indexarTodos [(str "doc1", str "cats and dogs")] with
        indice_carregado := true }
      (Busca.limparTermo (aparar (str "climate change"))) = [] ∧
    Busca.buscar
      { Indexador.indexarTodos [(str "doc1", str "cats and dogs")] with
        indice_carregado := true }
      ('"' :: (str "climate change" ++ ['"'])) = []) :=
  ⟨by decide, by decide,
    c9_frase_citada [(str "doc1", str "cats and dogs")] true (str "climate change")
      (by decide) (by decide)⟩

/-! ## A store-level model for the defensive copy in `obter_postings`

The functional embedding cannot express Python aliasing, so the copy
semantics of `dict(self.postings.get(termo, {}))` is modelled with an
explicit store: inner postings dicts live at numeric addresses, the index
maps each term to an address, and `obter_postings` allocates a fresh
address holding a copy of the looked-up contents (`dict.get` on the
defaultdict never inserts, so the term table is returned unchanged). -/

namespace CopiaPostings

/-- The store of inner `{doc: tf}` dicts, addressed by allocation order. -/
structure Memoria where
  dados : List (Nat × List (Str × Nat))
  prox : Nat

/-- The index's own table: term → address of its inner dict. -/
structure IndexadorRef where
  postings : List (Str × Nat)

def lerEnd (dados : List (Nat × List (Str × Nat))) (r : Nat) : List (Str × Nat) :=
  match dados with
  | [] => []
  | p :: rest => if p.1 = r then p.2 else lerEnd rest r

def escreverEnd (dados : List (Nat × List (Str × Nat))) (r : Nat)
    (v : List (Str × Nat)) : List (Nat × List (Str × Nat)) :=
  match dados with
  | [] => []
  | p :: rest => (if p.1 = r then (r, v) else p) :: escreverEnd rest r v

/-- `obter_postings` in the store model: read the term's dict (or the
empty dict), allocate a fresh copy, return its address and the unchanged
index. -/
def obter_postings_ref (m : Memoria) (idx : IndexadorRef) (termo : Str) :
    Nat × Memoria × IndexadorRef :=
  let conteudo := match procurar idx.postings termo with
    | some r => lerEnd m.dados r
    | none => []
  (m.prox, ⟨m.dados ++ [(m.prox, conteudo)], m.prox + 1⟩, idx)

/-- An arbitrary caller-side mutation of the dict at address `r`. -/
def mutarEnd (m : Memoria) (r : Nat) (f : List (Str × Nat) → List (Str × Nat)) : Memoria :=
  ⟨escreverEnd m.dados r (f (lerEnd m.dados r)), m.prox⟩

/-- Store validity: every allocated cell and every address referenced by
the index lies below the allocation cursor. -/
def BoaMemoria (m : Memoria) (idx : IndexadorRef) : Prop :=
  (∀ q ∈ m.dados, q.1 < m.prox) ∧ (∀ p ∈ idx.postings, p.2 < m.prox)

instance (m : Memoria) (idx : IndexadorRef) : Decidable (BoaMemoria m idx) := by
  unfold BoaMemoria
  infer_instance

/-- What the caller observes through the index for a term. -/
def verTermo (m : Memoria) (idx : IndexadorRef) (termo : Str) : Option (List (Str × Nat)) :=
  (procurar idx.postings termo).map (lerEnd m.dados)

theorem lerEnd_escrever_outro {dados : List (Nat × List (Str × Nat))} {r r2 : Nat}
    (h : r2 ≠ r) (v : List (Str × Nat)) :
    lerEnd (escreverEnd dados r v) r2 = lerEnd dados r2 := by
  induction dados with
  | nil => rfl
  | cons q rest ih =>
    by_cases hq : q.1 = r
    · rw [escreverEnd, if_pos hq, lerEnd, if_neg (fun hh => h hh.symm),
        lerEnd, if_neg (fun hh => h (hq ▸ hh).symm)]
      exact ih
    · rw [escreverEnd, if_neg hq, lerEnd, lerEnd]
      by_cases h2 : q.1 = r2
      · rw [if_pos h2, if_pos h2]
      · rw [if_neg h2, if_neg h2]
        exact ih

theorem lerEnd_append_outro {dados : List (Nat × List (Str × Nat))} {r a : Nat}
    (h : r ≠ a) (v : List (Str × Nat)) :
    lerEnd (dados ++ [(a, v)]) r = lerEnd dados r := by
  induction dados with
  | nil =>
    show (if (a, v).1 = r then (a, v).2 else lerEnd [] r) = lerEnd [] r
    rw [if_neg (fun hh => h (Eq.symm hh))]
  | cons q rest ih =>
    rw [List.cons_append, lerEnd, lerEnd]
    by_cases hq : q.1 = r
    · rw [if_pos hq, if_pos hq]
    · rw [if_neg hq, if_neg hq]
      exact ih

theorem lerEnd_append_fresco {dados : List (Nat × List (Str × Nat))} {a : Nat}
    (h : ∀ q ∈ dados, q.1 ≠ a) (v : List (Str × Nat)) :
    lerEnd (dados ++ [(a, v)]) a = v := by
  induction dados with
  | nil =>
    rw [List.nil_append, lerEnd, if_pos rfl]
  | cons q rest ih =>
    rw [List.cons_append, lerEnd, if_neg (h q (List.mem_cons_self _ _))]
    exact ih (fun u hu => h u (List.mem_cons_of_mem _ hu))

end CopiaPostings

/-- C10: `obter_postings` hands the caller a fresh copy.  In the store
model: the index's term table is returned unchanged, the fresh cell holds
exactly the term's current contents, and after ANY caller mutation of the
returned dict every term still reads its original contents through the
index. -/
theorem c10_obter_postings_copia (m : CopiaPostings.Memoria)
    (idx : CopiaPostings.IndexadorRef) (termo : Str)
    (hboa : CopiaPostings.BoaMemoria m idx)
    (f : List (Str × Nat) → List (Str × Nat)) :
    (CopiaPostings.obter_postings_ref m idx termo).2.2 = idx ∧
    CopiaPostings.lerEnd ((CopiaPostings.obter_postings_ref m idx termo).2.1).dados
        (CopiaPostings.obter_postings_ref m idx termo).1
      = ((procurar idx.postings termo).map (CopiaPostings.lerEnd m.dados)).getD [] ∧
    ∀ t, CopiaPostings.verTermo
        (CopiaPostings.mutarEnd (CopiaPostings.obter_postings_ref m idx termo).2.1
          (CopiaPostings.obter_postings_ref m idx termo).1 f) idx t
      = CopiaPostings.verTermo m idx t := by
  obtain ⟨hdados, hrefs⟩ := hboa
  refine ⟨rfl, ?_, ?_⟩
  · simp only [CopiaPostings.obter_postings_ref]
    rw [CopiaPostings.lerEnd_append_fresco
      (fun q hq => Nat.ne_of_lt (hdados q hq))]
    cases hprc : procurar idx.postings termo <;> rfl
  · intro t
    simp only [CopiaPostings.verTermo, CopiaPostings.mutarEnd,
      CopiaPostings.obter_postings_ref]
    cases hprc : procurar idx.postings t with
    | none => rfl
    | some r =>
      have hr : r < m.prox := hrefs (t, r) (procurar_eq_some_mem hprc)
      simp only [Option.map_some']
      rw [CopiaPostings.lerEnd_escrever_outro (Nat.ne_of_lt hr),
        CopiaPostings.lerEnd_append_outro (Nat.ne_of_lt hr)]

theorem c10_obter_postings_copia_witness :
    CopiaPostings.BoaMemoria ⟨[(0, [(str "doc1", 2)])], 1⟩ ⟨[(str "abc", 0)]⟩ ∧
    ((CopiaPostings.obter_postings_ref ⟨[(0, [(str "doc1", 2)])], 1⟩
        ⟨[(str "abc", 0)]⟩ (str "abc")).2.2 = ⟨[(str "abc", 0)]⟩ ∧
    CopiaPostings.lerEnd ((CopiaPostings.obter_postings_ref ⟨[(0, [(str "doc1", 2)])], 1⟩
        ⟨[(str "abc", 0)]⟩ (str "abc")).2.1).dados
        (CopiaPostings.obter_postings_ref ⟨[(0, [(str "doc1", 2)])], 1⟩
          ⟨[(str "abc", 0)]⟩ (str "abc")).1
      = ((procurar (⟨[(str "abc", 0)]⟩ : CopiaPostings.IndexadorRef).postings (str "abc")).map
          (CopiaPostings.lerEnd (⟨[(0, [(str "doc1", 2)])], 1⟩ :
            CopiaPostings.Memoria).dados)).getD [] ∧
    ∀ t, CopiaPostings.verTermo
        (CopiaPostings.mutarEnd (CopiaPostings.obter_postings_ref ⟨[(0, [(str "doc1", 2)])], 1⟩
            ⟨[(str "abc", 0)]⟩ (str "abc")).2.1
          (CopiaPostings.obter_postings_ref ⟨[(0, [(str "doc1", 2)])], 1⟩
            ⟨[(str "abc", 0)]⟩ (str "abc")).1 (fun _ => []))
        ⟨[(str "abc", 0)]⟩ t
      = CopiaPostings.verTermo ⟨[(0, [(str "doc1", 2)])], 1⟩ ⟨[(str "abc", 0)]⟩ t) :=
  ⟨by decide,
    c10_obter_postings_copia ⟨[(0, [(str "doc1", 2)])], 1⟩ ⟨[(str "abc", 0)]⟩ (str "abc")
      (by decide) (fun _ => [])⟩

/-! ## Persistence (`salvar_indice` / `carregar_indice`)

The index file is modelled as a flat character list; `salvar_indice`
produces it and `carregar_indice` consumes it, splitting into lines at
newline characters exactly as Python's file-line iteration plus
`rstrip("\n")` does.  `json.dumps`/`json.loads` are modelled on the exact
JSON shapes the save routine emits (objects with natural-number or
metadata values, lists of strings, escaping of quote and backslash);
`int(...)` is modelled as unsigned decimal digits. -/

namespace Indexador

/-- `str(n)` for a natural number, digit by digit (fuel = the number). -/
def natParaStrAux : Nat → Nat → Str
  | 0, _ => []
  | _, 0 => []
  | fuel+1, n+1 =>
    natParaStrAux fuel ((n+1) / 10) ++ [Nat.digitChar ((n+1) % 10)]

def natParaStr (n : Nat) : Str :=
  if n = 0 then ['0'] else natParaStrAux (n+1) n

def valDigito (c : Char) : Nat := c.toNat - 48

def valorDe (s : Str) : Nat := s.foldl (fun acc c => acc * 10 + valDigito c) 0

/-- `int(s)` restricted to unsigned decimal digit strings. -/
def strParaNat? (s : Str) : Option Nat :=
  if s = [] then none
  else if s.all Char.isDigit then some (valorDe s) else none

theorem valDigito_digitChar {r : Nat} (h : r < 10) :
    valDigito (Nat.digitChar r) = r := by
  interval_cases r <;> rfl

theorem digitChar_digito {r : Nat} (h : r < 10) :
    (Nat.digitChar r).isDigit = true := by
  interval_cases r <;> rfl

theorem natParaStrAux_digitos :
    ∀ (fuel n : Nat), ∀ c ∈ natParaStrAux fuel n, c.isDigit = true := by
  intro fuel
  induction fuel with
  | zero => intro n c hc; simp [natParaStrAux] at hc
  | succ f ih =>
    intro n c hc
    cases n with
    | zero => simp [natParaStrAux] at hc
    | succ m =>
      rw [natParaStrAux] at hc
      rcases List.mem_append.mp hc with h1 | h2
      · exact ih _ c h1
      · rcases List.mem_singleton.mp h2 with rfl
        exact digitChar_digito (Nat.mod_lt _ (by norm_num))

theorem natParaStrAux_valor :
    ∀ (fuel n : Nat), n < fuel → ∀ a : Nat,
      List.foldl (fun acc c => acc * 10 + valDigito c) a (natParaStrAux fuel n)
        = a * 10 ^ (natParaStrAux fuel n).length + n := by
  intro fuel
  induction fuel with
  | zero => intro n h; omega
  | succ f ih =>
    intro n hn a
    cases n with
    | zero => simp [natParaStrAux]
    | succ m =>
      have hq : (m+1) / 10 < f := by
        have h1 : (m+1) / 10 < m + 1 := Nat.div_lt_self (Nat.succ_pos m) (by norm_num)
        omega
      rw [natParaStrAux, List.foldl_append, ih _ hq a, List.length_append]
      simp only [List.foldl_cons, List.foldl_nil, List.length_singleton]
      rw [valDigito_digitChar (Nat.mod_lt _ (by norm_num))]
      have := Nat.div_add_mod (m+1) 10
      ring_nf
      omega

theorem natParaStr_digitos {n : Nat} : ∀ c ∈ natParaStr n, c.isDigit = true := by
  intro c hc
  by_cases h : n = 0
  · rw [natParaStr, if_pos h] at hc
    rcases List.mem_singleton.mp hc with rfl
    rfl
  · rw [natParaStr, if_neg h] at hc
    exact natParaStrAux_digitos _ _ c hc

theorem natParaStr_ne_nil (n : Nat) : natParaStr n ≠ [] := by
  by_cases h : n = 0
  · rw [natParaStr, if_pos h]; simp
  · rw [natParaStr, if_neg h]
    cases n with
    | zero => exact absurd rfl h
    | succ m =>
      rw [natParaStrAux]
      simp

theorem strParaNat_natParaStr (n : Nat) : strParaNat? (natParaStr n) = some n := by
  rw [strParaNat?, if_neg (natParaStr_ne_nil n),
    if_pos (List.all_eq_true.mpr (fun c hc => natParaStr_digitos c hc))]
  by_cases h : n = 0
  · subst h; rfl
  · rw [valorDe, natParaStr, if_neg h, natParaStrAux_valor (n+1) n (Nat.lt_succ_self n) 0]
    cases n with
    | zero => exact absurd rfl h
    | succ m => simp

/-- `s.split(sep, 1)`: split at the first occurrence, `none` when the
separator is absent (where Python's two-name unpacking raises). -/
def quebrarUma (sep : Char) : Str → Option (Str × Str)
  | [] => none
  | c :: r =>
    if c = sep then some ([], r)
    else (quebrarUma sep r).map (fun p => (c :: p.1, p.2))

/-- `s.split(sep)` with Python semantics: always at least one piece,
empty pieces preserved. -/
def quebrar (sep : Char) : Str → List Str
  | [] => [[]]
  | c :: r =>
    if c = sep then [] :: quebrar sep r
    else
      match quebrar sep r with
      | [] => [[c]]
      | p :: ps => (c :: p) :: ps

/-- `sep.join(pieces)`. -/
def juntarCom (sep : Str) : List Str → Str
  | [] => []
  | [x] => x
  | x :: y :: xs => x ++ sep ++ juntarCom sep (y :: xs)

theorem quebrar_ne_nil (sep : Char) : ∀ s : Str, quebrar sep s ≠ [] := by
  intro s
  cases s with
  | nil => rw [quebrar]; simp
  | cons c r =>
    rw [quebrar]
    by_cases h : c = sep
    · rw [if_pos h]; simp
    · rw [if_neg h]
      cases hq : quebrar sep r <;> simp

theorem quebrar_sem_sep {sep : Char} : ∀ {s : Str}, sep ∉ s → quebrar sep s = [s] := by
  intro s
  induction s with
  | nil => intro _; rfl
  | cons c r ih =>
    intro h
    rw [quebrar, if_neg (by rintro rfl; exact h (List.mem_cons_self _ _)),
      ih (fun hm => h (List.mem_cons_of_mem c hm))]

theorem quebrar_cabeca {sep : Char} : ∀ {a : Str}, sep ∉ a → ∀ b : Str,
    quebrar sep (a ++ sep :: b) = a :: quebrar sep b := by
  intro a
  induction a with
  | nil =>
    intro _ b
    rw [List.nil_append, quebrar, if_pos rfl]
  | cons c r ih =>
    intro h b
    rw [List.cons_append, quebrar, if_neg (by rintro rfl; exact h (List.mem_cons_self _ _)),
      ih (fun hm => h (List.mem_cons_of_mem c hm)) b]

theorem quebrarUma_acha {sep : Char} : ∀ {a : Str}, sep ∉ a → ∀ b : Str,
    quebrarUma sep (a ++ sep :: b) = some (a, b) := by
  intro a
  induction a with
  | nil =>
    intro _ b
    rw [List.nil_append, quebrarUma, if_pos rfl]
  | cons c r ih =>
    intro h b
    rw [List.cons_append, quebrarUma, if_neg (by rintro rfl; exact h (List.mem_cons_self _ _)),
      ih (fun hm => h (List.mem_cons_of_mem c hm)) b]
    rfl

theorem quebrarUma_ausente {sep : Char} : ∀ {s : Str}, sep ∉ s →
    quebrarUma sep s = none := by
  intro s
  induction s with
  | nil => intro _; rfl
  | cons c r ih =>
    intro h
    rw [quebrarUma, if_neg (by rintro rfl; exact h (List.mem_cons_self _ _)),
      ih (fun hm => h (List.mem_cons_of_mem c hm))]
    rfl

/-- `join` then `split` is the identity on non-empty piece lists whose
pieces avoid the separator. -/
theorem quebrar_juntar {sep : Char} : ∀ {pieces : List Str}, pieces ≠ [] →
    (∀ p ∈ pieces, sep ∉ p) → quebrar sep (juntarCom [sep] pieces) = pieces := by
  intro pieces
  induction pieces with
  | nil => intro h; exact absurd rfl h
  | cons x xs ih =>
    intro _ h
    cases xs with
    | nil =>
      rw [juntarCom, quebrar_sem_sep (h x (List.mem_cons_self x []))]
    | cons y ys =>
      rw [juntarCom, List.append_assoc, List.singleton_append,
        quebrar_cabeca (h x (List.mem_cons_self x (y :: ys))),
        ih (by simp) (fun p hp => h p (List.mem_cons_of_mem x hp))]

/-- The lines of a written file: Python's per-line iteration with
`rstrip("\n")` (each written line carries exactly one trailing newline). -/
def linhasDe (conteudo : Str) : List Str :=
  let ps := quebrar '\n' conteudo
  if ps.getLast? = some [] then ps.dropLast else ps

/-- The file contents produced by writing each line with a trailing
newline. -/
def arquivoDe (linhas : List Str) : Str :=
  (linhas.map (fun l => l ++ ['\n'])).flatten

theorem linhasDe_arquivoDe : ∀ {linhas : List Str},
    (∀ l ∈ linhas, '\n' ∉ l) → linhasDe (arquivoDe linhas) = linhas := by
  have passo : ∀ (linhas : List Str), (∀ l ∈ linhas, '\n' ∉ l) →
      quebrar '\n' (arquivoDe linhas) = linhas ++ [[]] := by
    intro linhas
    induction linhas with
    | nil => intro _; rfl
    | cons x xs ih =>
      intro h
      have : arquivoDe (x :: xs) = x ++ '\n' :: arquivoDe xs := by
        simp only [arquivoDe, List.map_cons, List.flatten_cons, List.append_assoc,
          List.singleton_append]
      rw [this, quebrar_cabeca (h x (List.mem_cons_self x xs)),
        ih (fun l hl => h l (List.mem_cons_of_mem x hl))]
      rfl
  intro linhas h
  rw [linhasDe]
  simp only [passo linhas h]
  rw [if_pos (by simp), List.dropLast_concat]

/-- JSON string escaping as `json.dumps` performs it on the characters
that occur here (quote and backslash). -/
def escapar : Str → Str
  | [] => []
  | c :: r =>
    if c = '\"' ∨ c = '\\' then '\\' :: c :: escapar r else c :: escapar r

def dumpStr (s : Str) : Str := '\"' :: escapar s ++ ['\"']

/-- Consume the body of a JSON string (after the opening quote), returning
content and remainder. -/
def parseStrAux : Str → Option (Str × Str)
  | [] => none
  | c :: r =>
    if c = '\"' then some ([], r)
    else if c = '\\' then
      match r with
      | [] => none
      | d :: r2 =>
        if d = '\"' ∨ d = '\\' then
          (parseStrAux r2).map (fun p => (d :: p.1, p.2))
        else none
    else (parseStrAux r).map (fun p => (c :: p.1, p.2))

def parseStr : Str → Option (Str × Str)
  | [] => none
  | c :: r => if c = '\"' then parseStrAux r else none

theorem parseStrAux_escapar : ∀ (s rest : Str),
    parseStrAux (escapar s ++ '\"' :: rest) = some (s, rest) := by
  intro s
  induction s with
  | nil =>
    intro rest
    rw [escapar, List.nil_append, parseStrAux.eq_def]
    dsimp only
    rw [if_pos rfl]
  | cons c r ih =>
    intro rest
    by_cases hc : c = '\"' ∨ c = '\\'
    · rw [escapar, if_pos hc, List.cons_append, List.cons_append, parseStrAux.eq_def]
      dsimp only
      rw [if_neg (by decide), if_pos rfl, if_pos hc, ih rest]
      rfl
    · rw [escapar, if_neg hc, List.cons_append, parseStrAux.eq_def]
      dsimp only
      rw [if_neg (fun h => hc (Or.inl h)), if_neg (fun h => hc (Or.inr h)), ih rest]
      rfl

theorem parseStr_dumpStr (s rest : Str) :
    parseStr (dumpStr s ++ rest) = some (s, rest) := by
  have h : parseStr (dumpStr s ++ rest) = parseStrAux ((escapar s ++ ['\"']) ++ rest) := rfl
  rw [h, List.append_assoc, List.singleton_append, parseStrAux_escapar]

/-- Consume a leading run of decimal digits as a number. -/
def parseNatPref (s : Str) : Option (Nat × Str) :=
  let digs := s.takeWhile Char.isDigit
  if digs = [] then none
  else some (valorDe digs, s.dropWhile Char.isDigit)

theorem takeWhile_digitos {a : Str} (ha : ∀ c ∈ a, c.isDigit = true) :
    ∀ {b : Str}, (∀ c, b.head? = some c → c.isDigit = false) →
      (a ++ b).takeWhile Char.isDigit = a ∧ (a ++ b).dropWhile Char.isDigit = b := by
  induction a with
  | nil =>
    intro b hb
    constructor
    · cases b with
      | nil => rfl
      | cons c r =>
        rw [List.nil_append, List.takeWhile_cons, hb c rfl, if_neg (by decide)]
    · cases b with
      | nil => rfl
      | cons c r =>
        rw [List.nil_append, List.dropWhile_cons, hb c rfl, if_neg (by decide)]
  | cons c r ih =>
    intro b hb
    have hc : c.isDigit = true := ha c (List.mem_cons_self c r)
    have ihr := ih (fun d hd => ha d (List.mem_cons_of_mem c hd)) hb
    constructor
    · rw [List.cons_append, List.takeWhile_cons, hc, if_pos rfl, ihr.1]
    · rw [List.cons_append, List.dropWhile_cons, hc, if_pos rfl, ihr.2]

theorem parseNatPref_natParaStr (n : Nat) {rest : Str}
    (hrest : ∀ c, rest.head? = some c → c.isDigit = false) :
    parseNatPref (natParaStr n ++ rest) = some (n, rest) := by
  obtain ⟨h1, h2⟩ :=
    @takeWhile_digitos (natParaStr n) (fun c hc => @natParaStr_digitos n c hc) rest hrest
  simp only [parseNatPref, h1, h2]
  rw [if_neg (natParaStr_ne_nil n)]
  have := strParaNat_natParaStr n
  rw [strParaNat?, if_neg (natParaStr_ne_nil n),
    if_pos (List.all_eq_true.mpr (fun c hc => natParaStr_digitos c hc))] at this
  rw [Option.some_inj.mp this]

/-- Consume an expected literal prefix. -/
def esperar : Str → Str → Option Str
  | [], s => some s
  | _ :: _, [] => none
  | c :: r, d :: s => if d = c then esperar r s else none

theorem esperar_acerta : ∀ (p rest : Str), esperar p (p ++ rest) = some rest := by
  intro p
  induction p with
  | nil => intro rest; rfl
  | cons c r ih =>
    intro rest
    rw [List.cons_append, esperar, if_pos rfl, ih]

/-- Comma-separated items followed by a closing delimiter, as both
`json.dumps` writes them and the shaped reader consumes them. -/
def parseItens {α : Type} (item : Str → Option (α × Str)) (fecha : Char) :
    Nat → Str → Option (List α × Str)
  | 0, _ => none
  | fuel+1, s =>
    match item s with
    | none => none
    | some (x, r1) =>
      match esperar (str ", ") r1 with
      | some r2 => (parseItens item fecha fuel r2).map (fun p => (x :: p.1, p.2))
      | none =>
        match esperar [fecha] r1 with
        | some r2 => some ([x], r2)
        | none => none

def juntarItens {α : Type} (dumpItem : α → Str) (fecha : Char) : List α → Str
  | [] => [fecha]
  | [x] => dumpItem x ++ [fecha]
  | x :: y :: xs => dumpItem x ++ ',' :: ' ' :: juntarItens dumpItem fecha (y :: xs)

theorem juntarItens_comprimento {α : Type} (dumpItem : α → Str) (fecha : Char) :
    ∀ l : List α, l.length ≤ (juntarItens dumpItem fecha l).length := by
  intro l
  induction l with
  | nil => simp [juntarItens]
  | cons x xs ih =>
    cases xs with
    | nil => simp [juntarItens]
    | cons y ys =>
      rw [juntarItens]
      simp only [List.length_append, List.length_cons] at ih ⊢
      omega

theorem parseItens_juntar {α : Type} (item : Str → Option (α × Str)) (fecha : Char)
    (dumpItem : α → Str) (hfecha : fecha ≠ ',')
    (hitem : ∀ (x : α) (rest : Str),
      rest.head? = some ',' ∨ rest.head? = some fecha →
      item (dumpItem x ++ rest) = some (x, rest)) :
    ∀ (l : List α), l ≠ [] → ∀ (fuel : Nat), l.length ≤ fuel → ∀ rest : Str,
      parseItens item fecha fuel (juntarItens dumpItem fecha l ++ rest)
        = some (l, rest) := by
  intro l
  induction l with
  | nil => intro h; exact absurd rfl h
  | cons x xs ih =>
    intro _ fuel hfuel rest
    cases fuel with
    | zero => simp at hfuel
    | succ f =>
      cases xs with
      | nil =>
        rw [juntarItens, parseItens.eq_def]
        dsimp only
        rw [List.append_assoc, List.singleton_append,
          hitem x (fecha :: rest) (Or.inr rfl)]
        dsimp only
        have hcomma : esperar (str ", ") (fecha :: rest) = none := by
          show esperar (',' :: [' ']) (fecha :: rest) = none
          rw [esperar, if_neg hfecha]
        rw [hcomma]
        dsimp only
        have hfechou : esperar [fecha] (fecha :: rest) = some rest :=
          esperar_acerta [fecha] rest
        rw [hfechou]
      | cons y ys =>
        rw [juntarItens, parseItens.eq_def]
        dsimp only
        rw [List.append_assoc, List.cons_append, List.cons_append,
          hitem x (',' :: ' ' :: (juntarItens dumpItem fecha (y :: ys) ++ rest))
            (Or.inl rfl)]
        dsimp only
        have hsep : esperar (str ", ")
            (',' :: ' ' :: (juntarItens dumpItem fecha (y :: ys) ++ rest))
            = some (juntarItens dumpItem fecha (y :: ys) ++ rest) :=
          esperar_acerta (str ", ") _
        rw [hsep]
        dsimp only
        rw [ih (by simp) f (by simpa using Nat.le_of_succ_le_succ hfuel) rest]
        rfl

theorem parseItens_juntar_fim {α : Type} (item : Str → Option (α × Str)) (fecha : Char)
    (dumpItem : α → Str) (hfecha : fecha ≠ ',')
    (hitem : ∀ (x : α) (rest : Str),
      rest.head? = some ',' ∨ rest.head? = some fecha →
      item (dumpItem x ++ rest) = some (x, rest))
    (l : List α) (hne : l ≠ []) (fuel : Nat) (hfuel : l.length ≤ fuel) :
    parseItens item fecha fuel (juntarItens dumpItem fecha l) = some (l, []) := by
  have h := parseItens_juntar item fecha dumpItem hfecha hitem l hne fuel hfuel []
  rwa [List.append_nil] at h

/-- A `"chave": valor` member with a natural-number value. -/
def itemNat (s : Str) : Option ((Str × Nat) × Str) :=
  match parseStr s with
  | none => none
  | some (k, r1) =>
    match esperar (str ": ") r1 with
    | none => none
    | some r2 =>
      match parseNatPref r2 with
      | none => none
      | some (v, r3) => some ((k, v), r3)

def itemNatDump (p : Str × Nat) : Str := dumpStr p.1 ++ ':' :: ' ' :: natParaStr p.2

theorem itemNat_dump (fecha : Char) (hd : fecha.isDigit = false) :
    ∀ (x : Str × Nat) (rest : Str),
      rest.head? = some ',' ∨ rest.head? = some fecha →
      itemNat (itemNatDump x ++ rest) = some (x, rest) := by
  rintro ⟨k, v⟩ rest hrest
  have h1 : itemNatDump (k, v) ++ rest
      = dumpStr k ++ (str ": " ++ (natParaStr v ++ rest)) := by
    rw [itemNatDump, List.append_assoc]
    rfl
  have hdig : ∀ c, rest.head? = some c → c.isDigit = false := by
    intro c hc
    rcases hrest with h | h
    · rw [h] at hc
      rcases Option.some_inj.mp hc with rfl
      rfl
    · rw [h] at hc
      rcases Option.some_inj.mp hc with rfl
      exact hd
  rw [h1, itemNat, parseStr_dumpStr]
  dsimp only
  rw [esperar_acerta]
  dsimp only
  rw [parseNatPref_natParaStr v hdig]

/-- A generic `json` delimited list: opening char, items, closing char,
nothing after. -/
def parseFechado {α : Type} (abre fecha : Char) (item : Str → Option (α × Str))
    (s : Str) : Option (List α) :=
  match s with
  | [] => none
  | c :: r =>
    if c = abre then
      if r = [fecha] then some []
      else
        match parseItens item fecha (r.length + 1) r with
        | some (l, []) => some l
        | _ => none
    else none

def dumpFechado {α : Type} (abre fecha : Char) (dumpItem : α → Str) (l : List α) : Str :=
  abre :: juntarItens dumpItem fecha l

theorem juntarItens_cons {α : Type} (dumpItem : α → Str) (fecha : Char) (x : α)
    (xs : List α) : ∃ t : Str, juntarItens dumpItem fecha (x :: xs) = dumpItem x ++ t := by
  cases xs with
  | nil => exact ⟨[fecha], rfl⟩
  | cons y ys => exact ⟨',' :: ' ' :: juntarItens dumpItem fecha (y :: ys), rfl⟩

theorem parseFechado_dump {α : Type} (abre fecha : Char) (item : Str → Option (α × Str))
    (dumpItem : α → Str) (hfecha : fecha ≠ ',')
    (hitem : ∀ (x : α) (rest : Str),
      rest.head? = some ',' ∨ rest.head? = some fecha →
      item (dumpItem x ++ rest) = some (x, rest))
    (hhead : ∀ x : α, ∃ c t, dumpItem x = c :: t ∧ c ≠ fecha)
    (l : List α) :
    parseFechado abre fecha item (dumpFechado abre fecha dumpItem l) = some l := by
  cases l with
  | nil =>
    rw [dumpFechado, juntarItens, parseFechado.eq_def]
    dsimp only
    rw [if_pos rfl, if_pos rfl]
  | cons x xs =>
    obtain ⟨t, ht⟩ := juntarItens_cons dumpItem fecha x xs
    obtain ⟨c, t0, hdx, hc⟩ := hhead x
    have hne : juntarItens dumpItem fecha (x :: xs) ≠ [fecha] := by
      rw [ht, hdx, List.cons_append]
      intro h
      exact hc (List.head_eq_of_cons_eq h)
    rw [dumpFechado, parseFechado.eq_def]
    dsimp only
    rw [if_pos rfl, if_neg hne,
      parseItens_juntar_fim item fecha dumpItem hfecha hitem (x :: xs) (by simp)
        ((juntarItens dumpItem fecha (x :: xs)).length + 1)
        (Nat.le_succ_of_le (juntarItens_comprimento dumpItem fecha (x :: xs)))]

/-- `json.loads`/`json.dumps` for the global-statistics object. -/
def parseObjNat : Str → Option (List (Str × Nat)) := parseFechado '\x7b' '\x7d' itemNat

def dumpObjNat : List (Str × Nat) → Str := dumpFechado '\x7b' '\x7d' itemNatDump

theorem parseObjNat_dump (l : List (Str × Nat)) : parseObjNat (dumpObjNat l) = some l := by
  apply parseFechado_dump
  · decide
  · exact itemNat_dump '\x7d' rfl
  · intro x
    exact ⟨'\"', escapar x.1 ++ ['\"'] ++ (':' :: ' ' :: natParaStr x.2), by
      simp [itemNatDump, dumpStr, List.append_assoc], by decide⟩

/-- `json.loads`/`json.dumps` for the document-path list. -/
def parseLista : Str → Option (List Str) := parseFechado '[' ']' parseStr

def dumpLista : List Str → Str := dumpFechado '[' ']' dumpStr

theorem parseLista_dump (l : List Str) : parseLista (dumpLista l) = some l := by
  apply parseFechado_dump
  · decide
  · intro x rest _
    exact parseStr_dumpStr x rest
  · intro x
    exact ⟨'\"', escapar x ++ ['\"'], rfl, by decide⟩

/-- The inner per-document metadata object, with the exact keys and order
`indexar_documento` stores. -/
def parseMetaUm (s : Str) : Option (Metadados × Str) :=
  match s with
  | [] => none
  | c :: r =>
    if c = '\x7b' then
      match parseItens itemNat '\x7d' (r.length + 1) r with
      | some ([(k1, a), (k2, b), (k3, c3)], resto) =>
        if k1 = str "tamanho" ∧ k2 = str "num_palavras" ∧ k3 = str "palavras_unicas" then
          some (⟨a, b, c3⟩, resto)
        else none
      | _ => none
    else none

def dumpMetaUm (m : Metadados) : Str :=
  '\x7b' :: juntarItens itemNatDump '\x7d'
    [(str "tamanho", m.tamanho), (str "num_palavras", m.num_palavras),
     (str "palavras_unicas", m.palavras_unicas)]

theorem parseMetaUm_dump (m : Metadados) (rest : Str) :
    parseMetaUm (dumpMetaUm m ++ rest) = some (m, rest) := by
  rw [dumpMetaUm, List.cons_append, parseMetaUm.eq_def]
  dsimp only
  have hfuel : ([(str "tamanho", m.tamanho), (str "num_palavras", m.num_palavras),
      (str "palavras_unicas", m.palavras_unicas)] : List (Str × Nat)).length
      ≤ (juntarItens itemNatDump '\x7d'
          [(str "tamanho", m.tamanho), (str "num_palavras", m.num_palavras),
           (str "palavras_unicas", m.palavras_unicas)] ++ rest).length + 1 := by
    have h := juntarItens_comprimento itemNatDump '\x7d'
      [(str "tamanho", m.tamanho), (str "num_palavras", m.num_palavras),
       (str "palavras_unicas", m.palavras_unicas)]
    simp only [List.length_append, List.length_cons] at h ⊢
    omega
  rw [if_pos rfl,
    parseItens_juntar itemNat '\x7d' itemNatDump (by decide) (itemNat_dump '\x7d' rfl)
      [(str "tamanho", m.tamanho), (str "num_palavras", m.num_palavras),
       (str "palavras_unicas", m.palavras_unicas)] (by simp) _ hfuel rest]
  dsimp only
  rw [if_pos ⟨rfl, rfl, rfl⟩]

/-- A `"doc": {metadados}` member of the metadata object. -/
def itemMeta (s : Str) : Option ((Str × Metadados) × Str) :=
  match parseStr s with
  | none => none
  | some (k, r1) =>
    match esperar (str ": ") r1 with
    | none => none
    | some r2 =>
      match parseMetaUm r2 with
      | none => none
      | some (m, r3) => some ((k, m), r3)

def itemMetaDump (p : Str × Metadados) : Str := dumpStr p.1 ++ ':' :: ' ' :: dumpMetaUm p.2

theorem itemMeta_dump : ∀ (x : Str × Metadados) (rest : Str),
    rest.head? = some ',' ∨ rest.head? = some '\x7d' →
    itemMeta (itemMetaDump x ++ rest) = some (x, rest) := by
  rintro ⟨k, m⟩ rest _
  have h1 : itemMetaDump (k, m) ++ rest
      = dumpStr k ++ (str ": " ++ (dumpMetaUm m ++ rest)) := by
    rw [itemMetaDump, List.append_assoc]
    rfl
  rw [h1, itemMeta, parseStr_dumpStr]
  dsimp only
  rw [esperar_acerta]
  dsimp only
  rw [parseMetaUm_dump]

/-- `json.loads`/`json.dumps` for the metadata object. -/
def parseMeta : Str → Option (List (Str × Metadados)) := parseFechado '\x7b' '\x7d' itemMeta

def dumpMeta : List (Str × Metadados) → Str := dumpFechado '\x7b' '\x7d' itemMetaDump

theorem parseMeta_dump (l : List (Str × Metadados)) : parseMeta (dumpMeta l) = some l := by
  apply parseFechado_dump
  · decide
  · exact itemMeta_dump
  · intro x
    exact ⟨'\"', escapar x.1 ++ ['\"'] ++ (':' :: ' ' :: dumpMetaUm x.2), by
      simp [itemMetaDump, dumpStr, List.append_assoc], by decide⟩

/-- Lexicographic order on strings (`sorted` on Python strings). -/
def lexStr : Str → Str → Bool
  | [], _ => true
  | _ :: _, [] => false
  | a :: as, b :: bs =>
    if a.toNat < b.toNat then true
    else if b.toNat < a.toNat then false
    else lexStr as bs

def lexPar (p q : Str × Nat) : Bool :=
  if p.1 = q.1 then decide (p.2 ≤ q.2) else lexStr p.1 q.1

def ordenar (l : List Str) : List Str :=
  l.insertionSort (fun a b => lexStr a b = true)

def ordenarPares (l : List (Str × Nat)) : List (Str × Nat) :=
  l.insertionSort (fun a b => lexPar a b = true)

/-- One `termo|doc1:tf1;doc2:tf2;...` line. -/
def linhaPostings (s : Estado) (termo : Str) : Str :=
  termo ++ '|' :: juntarCom [';']
    ((ordenarPares ((procurar s.postings termo).getD [])).map
      (fun p => p.1 ++ ':' :: natParaStr p.2))

/-- The lines `salvar_indice` writes, in order. -/
def linhasSalvar (s : Estado) : List Str :=
  [str "# ESTATISTICAS_GLOBAIS", dumpObjNat s.estatisticas_globais,
   str "# METADADOS_DOCUMENTOS", dumpMeta s.metadados_documentos,
   str "# DOCUMENTOS", dumpLista (chaves s.documentos),
   str "# POSTINGS"]
  ++ (ordenar (chaves s.postings)).map (linhaPostings s)

/-- `salvar_indice`: the full written file contents. -/
def salvar_indice (s : Estado) : Str := arquivoDe (linhasSalvar s)

inductive Modo where
  | est
  | meta
  | docs
  | posts
deriving DecidableEq

/-- The reset block at the top of `carregar_indice` — everything except
`indice_carregado`, which that block does not touch. -/
def resetEstado (prior : Estado) : Estado :=
  { estadoInicial with indice_carregado := prior.indice_carregado }

/-- One `doc:tf` pair of a postings line: `doc, tf = par.split(":")`,
`tf = int(tf)`, postings assignment and trie insertion. -/
def aplicarPostingsPar (e : Estado) (termo : Str) (par : Str) : Option Estado :=
  match quebrar ':' par with
  | [doc, tfs] =>
    match strParaNat? tfs with
    | some tf =>
      some { e with
        postings := gravar e.postings termo
          (gravar ((procurar e.postings termo).getD []) doc tf)
        trie := Trie.inserir e.trie termo doc }
    | none => none
  | _ => none

def aplicarPares (termo : Str) : Estado → List Str → Option Estado
  | e, [] => some e
  | e, par :: resto =>
    match aplicarPostingsPar e termo par with
    | some e2 => aplicarPares termo e2 resto
    | none => none

/-- One postings line: `termo, serial = linha.split("|", 1)`, then the
pair loop when `serial` is non-empty. -/
def aplicarPostingsLinha (e : Estado) (linha : Str) : Option Estado :=
  match quebrarUma '|' linha with
  | none => none
  | some (termo, serial) =>
    if serial = [] then some e
    else aplicarPares termo e (quebrar ';' serial)

/-- The line loop of `carregar_indice`: success flag, the state at the end
(or at the failing line), and the last parsed document list. -/
def processarLinhas : List Str → Estado → Option Modo → List Str →
    Bool × Estado × List Str
  | [], e, _, docsL => (true, e, docsL)
  | linha :: resto, e, modo, docsL =>
    if linha = [] ∨ linha.head? = some '#' then
      let modo2 :=
        if linha = str "# ESTATISTICAS_GLOBAIS" then some Modo.est
        else if linha = str "# METADADOS_DOCUMENTOS" then some Modo.meta
        else if linha = str "# DOCUMENTOS" then some Modo.docs
        else if linha = str "# POSTINGS" then some Modo.posts
        else modo
      processarLinhas resto e modo2 docsL
    else
      match modo with
      | some Modo.est =>
        match parseObjNat linha with
        | some est2 =>
          processarLinhas resto { e with estatisticas_globais := est2 } modo docsL
        | none => (false, e, docsL)
      | some Modo.meta =>
        match parseMeta linha with
        | some m =>
          processarLinhas resto { e with metadados_documentos := m } modo docsL
        | none => (false, e, docsL)
      | some Modo.docs =>
        match parseLista linha with
        | some dl => processarLinhas resto e modo dl
        | none => (false, e, docsL)
      | some Modo.posts =>
        match aplicarPostingsLinha e linha with
        | some e2 => processarLinhas resto e2 modo docsL
        | none => (false, e, docsL)
      | none => processarLinhas resto e modo docsL

/-- `carregar_indice` over the file contents; on-disk document texts come
from the `disco` oracle (`None` = unreadable, skipped with a warning). -/
def carregar_indice (conteudo : Str) (disco : Str → Option Str) (prior : Estado) :
    Bool × Estado :=
  let e0 := resetEstado prior
  match processarLinhas (linhasDe conteudo) e0 none [] with
  | (false, e1, _) => (false, e1)
  | (true, e1, docsL) =>
    let novosDocs :=
      docsL.foldl (fun d caminho =>
        match disco caminho with
        | some texto => gravar d caminho texto
        | none => d) e1.documentos
    let comDocs : Estado := { e1 with documentos := novosDocs }
    let totalDocs :=
      max ((procurar comDocs.estatisticas_globais (str "total_documentos")).getD 0)
        (if comDocs.metadados_documentos.length = 0 then docsL.length
        else comDocs.metadados_documentos.length)
    (true, { comDocs with
      estatisticas_globais :=
        gravar (gravar comDocs.estatisticas_globais (str "total_documentos") totalDocs)
          (str "palavras_unicas") comDocs.postings.length
      indice_carregado := true })

end Indexador

namespace Indexador

theorem aplicarPostingsPar_campos {e : Estado} {termo par : Str} {e2 : Estado}
    (h : aplicarPostingsPar e termo par = some e2) :
    e2.indice_carregado = e.indice_carregado ∧ e2.documentos = e.documentos ∧
    e2.metadados_documentos = e.metadados_documentos ∧
    e2.estatisticas_globais = e.estatisticas_globais := by
  rw [aplicarPostingsPar] at h
  cases hq : quebrar ':' par with
  | nil => rw [hq] at h; cases h
  | cons a resto =>
    cases resto with
    | nil => rw [hq] at h; cases h
    | cons b resto2 =>
      cases resto2 with
      | nil =>
        rw [hq] at h
        dsimp only at h
        cases hn : strParaNat? b with
        | none => rw [hn] at h; cases h
        | some tf =>
          rw [hn] at h
          dsimp only at h
          rcases Option.some_inj.mp h with rfl
          exact ⟨rfl, rfl, rfl, rfl⟩
      | cons c resto3 => rw [hq] at h; cases h

theorem aplicarPares_campos {termo : Str} :
    ∀ {pares : List Str} {e e2 : Estado}, aplicarPares termo e pares = some e2 →
    e2.indice_carregado = e.indice_carregado ∧ e2.documentos = e.documentos ∧
    e2.metadados_documentos = e.metadados_documentos ∧
    e2.estatisticas_globais = e.estatisticas_globais := by
  intro pares
  induction pares with
  | nil =>
    intro e e2 h
    rcases Option.some_inj.mp h with rfl
    exact ⟨rfl, rfl, rfl, rfl⟩
  | cons par resto ih =>
    intro e e2 h
    rw [aplicarPares] at h
    cases hp : aplicarPostingsPar e termo par with
    | none => rw [hp] at h; cases h
    | some em =>
      rw [hp] at h
      dsimp only at h
      obtain ⟨h1, h2, h3, h4⟩ := aplicarPostingsPar_campos hp
      obtain ⟨g1, g2, g3, g4⟩ := ih h
      exact ⟨g1.trans h1, g2.trans h2, g3.trans h3, g4.trans h4⟩

theorem aplicarPostingsLinha_campos {e : Estado} {linha : Str} {e2 : Estado}
    (h : aplicarPostingsLinha e linha = some e2) :
    e2.indice_carregado = e.indice_carregado ∧ e2.documentos = e.documentos ∧
    e2.metadados_documentos = e.metadados_documentos ∧
    e2.estatisticas_globais = e.estatisticas_globais := by
  rw [aplicarPostingsLinha] at h
  cases hq : quebrarUma '|' linha with
  | none => rw [hq] at h; cases h
  | some p =>
    rw [hq] at h
    dsimp only at h
    by_cases hs : p.2 = []
    · rw [if_pos hs] at h
      rcases Option.some_inj.mp h with rfl
      exact ⟨rfl, rfl, rfl, rfl⟩
    · rw [if_neg hs] at h
      exact aplicarPares_campos h

/-- The line loop never touches `indice_carregado`, whether it succeeds
or fails. -/
theorem processarLinhas_flag :
    ∀ (linhas : List Str) (e : Estado) (modo : Option Modo) (docsL : List Str),
      (processarLinhas linhas e modo docsL).2.1.indice_carregado
        = e.indice_carregado := by
  intro linhas
  induction linhas with
  | nil => intro e modo docsL; rfl
  | cons linha resto ih =>
    intro e modo docsL
    rw [processarLinhas.eq_def]
    dsimp only
    by_cases hc : linha = [] ∨ linha.head? = some '#'
    · rw [if_pos hc]
      exact ih _ _ _
    · rw [if_neg hc]
      cases modo with
      | none => exact ih _ _ _
      | some m =>
        cases m with
        | est =>
          cases hp : parseObjNat linha with
          | none => rfl
          | some est2 => exact ih _ _ _
        | meta =>
          cases hp : parseMeta linha with
          | none => rfl
          | some mm => exact ih _ _ _
        | docs =>
          cases hp : parseLista linha with
          | none => rfl
          | some dl => exact ih _ _ _
        | posts =>
          cases hp : aplicarPostingsLinha e linha with
          | none => rfl
          | some e2 =>
            exact (ih _ _ _).trans (aplicarPostingsLinha_campos hp).1

end Indexador

/-- C1 counterexample: a file whose POSTINGS section has a valid line and
then a line with no `|` separator.  The load fails (returns false) but the
state is NOT freshly reset: the partially loaded postings survive, and a
previously set `indice_carregado` flag stays `true`. -/
theorem c1_contraexemplo :
    (Indexador.carregar_indice
        (Indexador.arquivoDe [str "# POSTINGS", str "abc|d:1", str "zz"])
        (fun _ => none)
        { Indexador.estadoInicial with indice_carregado := true }).1 = false ∧
    (Indexador.carregar_indice
        (Indexador.arquivoDe [str "# POSTINGS", str "abc|d:1", str "zz"])
        (fun _ => none)
        { Indexador.estadoInicial with indice_carregado := true }).2.postings
      = [(str "abc", [(str "d", 1)])] ∧
    (Indexador.carregar_indice
        (Indexador.arquivoDe [str "# POSTINGS", str "abc|d:1", str "zz"])
        (fun _ => none)
        { Indexador.estadoInicial with indice_carregado := true }).2.indice_carregado
      = true := by
  decide

/-- C1 (amended): when `carregar_indice` fails it returns `false`, but it
does not reset the index to a fresh state; in particular the
`indice_carregado` flag keeps whatever value it had before the call (the
failing load of a partially populated file can also leave postings
populated, as the counterexample shows). -/
theorem c1_carga_falha (conteudo : Str) (disco : Str → Option Str)
    (prior : Indexador.Estado)
    (h : (Indexador.carregar_indice conteudo disco prior).1 = false) :
    (Indexador.carregar_indice conteudo disco prior).2.indice_carregado
      = prior.indice_carregado := by
  have hflag := Indexador.processarLinhas_flag (Indexador.linhasDe conteudo)
    (Indexador.resetEstado prior) none []
  rcases hp : Indexador.processarLinhas (Indexador.linhasDe conteudo)
      (Indexador.resetEstado prior) none [] with ⟨b, e1, dl⟩
  rw [hp] at hflag
  cases b with
  | true =>
    have hres : (Indexador.carregar_indice conteudo disco prior).1 = true := by
      rw [Indexador.carregar_indice]
      simp only [hp]
    rw [hres] at h
    cases h
  | false =>
    have hres : Indexador.carregar_indice conteudo disco prior = (false, e1) := by
      rw [Indexador.carregar_indice]
      simp only [hp]
    rw [hres]
    exact hflag

theorem c1_carga_falha_witness :
    (Indexador.carregar_indice (Indexador.arquivoDe [str "# POSTINGS", str "sem"])
        (fun _ => none) Indexador.estadoInicial).1 = false ∧
    (Indexador.carregar_indice (Indexador.arquivoDe [str "# POSTINGS", str "sem"])
        (fun _ => none) Indexador.estadoInicial).2.indice_carregado
      = Indexador.estadoInicial.indice_carregado :=
  ⟨by decide,
    c1_carga_falha (Indexador.arquivoDe [str "# POSTINGS", str "sem"])
      (fun _ => none) Indexador.estadoInicial (by decide)⟩

namespace Indexador

theorem procurar_append {α : Type} {l1 : List (Str × α)} (l2 : List (Str × α)) {k : Str}
    (h : k ∉ chaves l1) : procurar (l1 ++ l2) k = procurar l2 k := by
  induction l1 with
  | nil => rfl
  | cons q r ih =>
    rcases q with ⟨qk, qv⟩
    rcases nao_membro_chaves h with ⟨h1, h2⟩
    rw [List.cons_append, procurar, if_neg h1]
    exact ih h2

theorem membro_procurar {α : Type} {l : List (Str × α)} {k : Str}
    (h : k ∈ chaves l) : ∃ v, procurar l k = some v := by
  induction l with
  | nil => simp [chaves] at h
  | cons q r ih =>
    rcases q with ⟨qk, qv⟩
    by_cases hk : qk = k
    · exact ⟨qv, by simp [procurar, hk]⟩
    · have hr : k ∈ chaves r := by
        simp only [chaves, List.map_cons, List.mem_cons] at h
        rcases h with h | h
        · exact absurd h.symm hk
        · exact h
      rcases ih hr with ⟨v, hv⟩
      exact ⟨v, by simp [procurar, hk, hv]⟩

theorem digito_ne {c d : Char} (h : c.isDigit = true) (hd : d.isDigit = false) :
    c ≠ d := by
  intro he
  rw [he, hd] at h
  cases h

theorem mem_escapar {c : Char} : ∀ {s : Str}, c ∈ escapar s → c = '\\' ∨ c ∈ s := by
  intro s
  induction s with
  | nil => intro h; cases h
  | cons d r ih =>
    intro h
    rw [escapar] at h
    by_cases hd : d = '\"' ∨ d = '\\'
    · rw [if_pos hd] at h
      rcases List.mem_cons.mp h with h | h
      · exact Or.inl h
      · rcases List.mem_cons.mp h with h | h
        · exact Or.inr (h ▸ List.mem_cons_self d r)
        · rcases ih h with h1 | h1
          · exact Or.inl h1
          · exact Or.inr (List.mem_cons_of_mem d h1)
    · rw [if_neg hd] at h
      rcases List.mem_cons.mp h with h | h
      · exact Or.inr (h ▸ List.mem_cons_self d r)
      · rcases ih h with h1 | h1
        · exact Or.inl h1
        · exact Or.inr (List.mem_cons_of_mem d h1)

theorem mem_dumpStr {c : Char} {s : Str} (h : c ∈ dumpStr s) :
    c = '\"' ∨ c = '\\' ∨ c ∈ s := by
  rw [dumpStr] at h
  rcases List.mem_cons.mp h with h | h
  · exact Or.inl h
  · rcases List.mem_append.mp h with h | h
    · rcases mem_escapar h with h1 | h1
      · exact Or.inr (Or.inl h1)
      · exact Or.inr (Or.inr h1)
    · exact Or.inl (List.mem_singleton.mp h)

theorem mem_juntarCom {c : Char} {sep : Str} :
    ∀ {l : List Str}, c ∈ juntarCom sep l → c ∈ sep ∨ ∃ x ∈ l, c ∈ x := by
  intro l
  induction l with
  | nil => intro h; cases h
  | cons x xs ih =>
    intro h
    cases xs with
    | nil =>
      rw [juntarCom] at h
      exact Or.inr ⟨x, List.mem_cons_self x [], h⟩
    | cons y ys =>
      rw [juntarCom] at h
      rcases List.mem_append.mp h with h | h
      · rcases List.mem_append.mp h with h | h
        · exact Or.inr ⟨x, List.mem_cons_self x (y :: ys), h⟩
        · exact Or.inl h
      · rcases ih h with h1 | ⟨z, hz, hcz⟩
        · exact Or.inl h1
        · exact Or.inr ⟨z, List.mem_cons_of_mem x hz, hcz⟩

theorem mem_juntarItens {α : Type} {c : Char} {dumpItem : α → Str} {fecha : Char} :
    ∀ {l : List α}, c ∈ juntarItens dumpItem fecha l →
      c = fecha ∨ c = ',' ∨ c = ' ' ∨ ∃ x ∈ l, c ∈ dumpItem x := by
  intro l
  induction l with
  | nil =>
    intro h
    exact Or.inl (List.mem_singleton.mp h)
  | cons x xs ih =>
    intro h
    cases xs with
    | nil =>
      rw [juntarItens] at h
      rcases List.mem_append.mp h with h | h
      · exact Or.inr (Or.inr (Or.inr ⟨x, List.mem_cons_self x [], h⟩))
      · exact Or.inl (List.mem_singleton.mp h)
    | cons y ys =>
      rw [juntarItens] at h
      rcases List.mem_append.mp h with h | h
      · exact Or.inr (Or.inr (Or.inr ⟨x, List.mem_cons_self x (y :: ys), h⟩))
      · rcases List.mem_cons.mp h with h | h
        · exact Or.inr (Or.inl h)
        · rcases List.mem_cons.mp h with h | h
          · exact Or.inr (Or.inr (Or.inl h))
          · rcases ih h with h1 | h1 | h1 | ⟨z, hz, hcz⟩
            · exact Or.inl h1
            · exact Or.inr (Or.inl h1)
            · exact Or.inr (Or.inr (Or.inl h1))
            · exact Or.inr (Or.inr (Or.inr ⟨z, List.mem_cons_of_mem x hz, hcz⟩))

theorem mem_itemNatDump {c : Char} {p : Str × Nat} (h : c ∈ itemNatDump p) :
    c ∈ dumpStr p.1 ∨ c = ':' ∨ c = ' ' ∨ c ∈ natParaStr p.2 := by
  rw [itemNatDump] at h
  rcases List.mem_append.mp h with h | h
  · exact Or.inl h
  · rcases List.mem_cons.mp h with h | h
    · exact Or.inr (Or.inl h)
    · rcases List.mem_cons.mp h with h | h
      · exact Or.inr (Or.inr (Or.inl h))
      · exact Or.inr (Or.inr (Or.inr h))

end Indexador

namespace Indexador

/-- Well-formedness of an ingestion-produced state, as the round-trip
claim assumes it: unique association keys, non-empty postings dicts,
terms free of `|`, newline and a leading `#`, document ids free of the
pair separators `:` and `;` and of newlines, and no newlines in any
serialised key. -/
def BemFormado (s : Estado) : Prop :=
  (chaves s.postings).Nodup ∧
  (chaves s.documentos).Nodup ∧
  (∀ par ∈ s.postings,
    par.1.head? ≠ some '#' ∧ '|' ∉ par.1 ∧ '\n' ∉ par.1 ∧
    par.2 ≠ [] ∧ (chaves par.2).Nodup ∧
    ∀ q ∈ par.2, ':' ∉ q.1 ∧ ';' ∉ q.1 ∧ '\n' ∉ q.1) ∧
  (∀ d ∈ s.documentos, '\n' ∉ d.1) ∧
  (∀ m ∈ s.metadados_documentos, '\n' ∉ m.1) ∧
  (∀ g ∈ s.estatisticas_globais, '\n' ∉ g.1)

instance (s : Estado) : Decidable (BemFormado s) := by
  unfold BemFormado
  infer_instance

theorem natParaStr_sem_nl {n : Nat} : '\n' ∉ natParaStr n := fun h =>
  absurd (natParaStr_digitos '\n' h) (by decide)

theorem dumpStr_sem_nl {t : Str} (h : '\n' ∉ t) : '\n' ∉ dumpStr t := by
  intro hm
  rcases mem_dumpStr hm with h1 | h1 | h1
  · exact absurd h1 (by decide)
  · exact absurd h1 (by decide)
  · exact h h1

theorem itemNatDump_sem_nl {p : Str × Nat} (h : '\n' ∉ p.1) : '\n' ∉ itemNatDump p := by
  intro hm
  rcases mem_itemNatDump hm with h1 | h1 | h1 | h1
  · exact dumpStr_sem_nl h h1
  · exact absurd h1 (by decide)
  · exact absurd h1 (by decide)
  · exact natParaStr_sem_nl h1

theorem dumpObjNat_sem_nl {l : List (Str × Nat)} (h : ∀ g ∈ l, '\n' ∉ g.1) :
    '\n' ∉ dumpObjNat l := by
  intro hm
  rw [dumpObjNat, dumpFechado] at hm
  rcases List.mem_cons.mp hm with h1 | h1
  · exact absurd h1 (by decide)
  · rcases mem_juntarItens h1 with h2 | h2 | h2 | ⟨x, hx, hcx⟩
    · exact absurd h2 (by decide)
    · exact absurd h2 (by decide)
    · exact absurd h2 (by decide)
    · exact itemNatDump_sem_nl (h x hx) hcx

theorem dumpMetaUm_sem_nl {m : Metadados} : '\n' ∉ dumpMetaUm m := by
  intro hm
  rw [dumpMetaUm] at hm
  rcases List.mem_cons.mp hm with h1 | h1
  · exact absurd h1 (by decide)
  · rcases mem_juntarItens h1 with h2 | h2 | h2 | ⟨x, hx, hcx⟩
    · exact absurd h2 (by decide)
    · exact absurd h2 (by decide)
    · exact absurd h2 (by decide)
    · rcases List.mem_cons.mp hx with hx1 | hx1
      · rw [hx1] at hcx
        exact itemNatDump_sem_nl (show '\n' ∉ str "tamanho" from by decide) hcx
      · rcases List.mem_cons.mp hx1 with hx2 | hx2
        · rw [hx2] at hcx
          exact itemNatDump_sem_nl (show '\n' ∉ str "num_palavras" from by decide) hcx
        · rw [List.mem_singleton.mp hx2] at hcx
          exact itemNatDump_sem_nl (show '\n' ∉ str "palavras_unicas" from by decide) hcx

theorem mem_itemMetaDump {c : Char} {p : Str × Metadados} (h : c ∈ itemMetaDump p) :
    c ∈ dumpStr p.1 ∨ c = ':' ∨ c = ' ' ∨ c ∈ dumpMetaUm p.2 := by
  rw [itemMetaDump] at h
  rcases List.mem_append.mp h with h | h
  · exact Or.inl h
  · rcases List.mem_cons.mp h with h | h
    · exact Or.inr (Or.inl h)
    · rcases List.mem_cons.mp h with h | h
      · exact Or.inr (Or.inr (Or.inl h))
      · exact Or.inr (Or.inr (Or.inr h))

theorem dumpMeta_sem_nl {l : List (Str × Metadados)} (h : ∀ m ∈ l, '\n' ∉ m.1) :
    '\n' ∉ dumpMeta l := by
  intro hm
  rw [dumpMeta, dumpFechado] at hm
  rcases List.mem_cons.mp hm with h1 | h1
  · exact absurd h1 (by decide)
  · rcases mem_juntarItens h1 with h2 | h2 | h2 | ⟨x, hx, hcx⟩
    · exact absurd h2 (by decide)
    · exact absurd h2 (by decide)
    · exact absurd h2 (by decide)
    · rcases mem_itemMetaDump hcx with h3 | h3 | h3 | h3
      · exact dumpStr_sem_nl (h x hx) h3
      · exact absurd h3 (by decide)
      · exact absurd h3 (by decide)
      · exact dumpMetaUm_sem_nl h3

theorem dumpLista_sem_nl {l : List Str} (h : ∀ d ∈ l, '\n' ∉ d) :
    '\n' ∉ dumpLista l := by
  intro hm
  rw [dumpLista, dumpFechado] at hm
  rcases List.mem_cons.mp hm with h1 | h1
  · exact absurd h1 (by decide)
  · rcases mem_juntarItens h1 with h2 | h2 | h2 | ⟨x, hx, hcx⟩
    · exact absurd h2 (by decide)
    · exact absurd h2 (by decide)
    · exact absurd h2 (by decide)
    · rcases mem_dumpStr hcx with h3 | h3 | h3
      · exact absurd h3 (by decide)
      · exact absurd h3 (by decide)
      · exact h x hx h3

theorem mem_ordenarPares {q : Str × Nat} {l : List (Str × Nat)} :
    q ∈ ordenarPares l ↔ q ∈ l :=
  (List.perm_insertionSort _ l).mem_iff

theorem mem_ordenar {t : Str} {l : List Str} : t ∈ ordenar l ↔ t ∈ l :=
  (List.perm_insertionSort _ l).mem_iff

theorem linhaPostings_sem_nl (s : Estado) {t : Str} (hterm : '\n' ∉ t)
    (hdocs : ∀ q ∈ (procurar s.postings t).getD [], '\n' ∉ q.1) :
    '\n' ∉ linhaPostings s t := by
  intro hm
  rw [linhaPostings] at hm
  rcases List.mem_append.mp hm with h1 | h1
  · exact hterm h1
  · rcases List.mem_cons.mp h1 with h2 | h2
    · exact absurd h2 (by decide)
    · rcases mem_juntarCom h2 with h3 | ⟨x, hx, hcx⟩
      · exact absurd (List.mem_singleton.mp h3) (by decide)
      · rcases List.mem_map.mp hx with ⟨q, hq, rfl⟩
        rcases List.mem_append.mp hcx with h4 | h4
        · exact hdocs q (mem_ordenarPares.mp hq) h4
        · rcases List.mem_cons.mp h4 with h5 | h5
          · exact absurd h5 (by decide)
          · exact natParaStr_sem_nl h5

theorem linhasSalvar_sem_nl {s : Estado} (hbf : BemFormado s) :
    ∀ l ∈ linhasSalvar s, '\n' ∉ l := by
  obtain ⟨hknd, hdnd, hpost, hdocnl, hmetanl, hestnl⟩ := hbf
  intro l hl
  rw [linhasSalvar] at hl
  rcases List.mem_append.mp hl with h | h
  · simp only [List.mem_cons, List.not_mem_nil, or_false] at h
    rcases h with rfl | rfl | rfl | rfl | rfl | rfl | rfl
    · decide
    · exact dumpObjNat_sem_nl (fun g hg => hestnl g hg)
    · decide
    · exact dumpMeta_sem_nl (fun m hm => hmetanl m hm)
    · decide
    · exact dumpLista_sem_nl (fun d hd => by
        rcases List.mem_map.mp hd with ⟨p, hp, rfl⟩
        exact hdocnl p hp)
    · decide
  · rcases List.mem_map.mp h with ⟨t, ht, rfl⟩
    have htc : t ∈ chaves s.postings := mem_ordenar.mp ht
    rcases Trie.mem_chaves htc with ⟨v, hv⟩
    have hterm : '\n' ∉ t := (hpost (t, v) hv).2.2.1
    apply linhaPostings_sem_nl s hterm
    intro q hq
    rcases membro_procurar htc with ⟨inner, hinner⟩
    rw [hinner] at hq
    have hmem : (t, inner) ∈ s.postings := procurar_eq_some_mem hinner
    exact ((hpost (t, inner) hmem).2.2.2.2.2 q hq).2.2

end Indexador

namespace Indexador

/-- The serialised form of one `doc:tf` pair. -/
def parDump (q : Str × Nat) : Str := q.1 ++ ':' :: natParaStr q.2

theorem quebrar_parDump {q : Str × Nat} (hdois : ':' ∉ q.1) :
    quebrar ':' (parDump q) = [q.1, natParaStr q.2] := by
  rw [parDump, quebrar_cabeca hdois,
    quebrar_sem_sep (fun hmem => absurd (natParaStr_digitos ':' hmem) (by decide))]

theorem aplicarPostingsPar_constroi {e : Estado} {t : Str}
    {pref : List (Str × List (Str × Nat))} {atual : List (Str × Nat)}
    (hpost : e.postings = pref ++ [(t, atual)]) (hpref : t ∉ chaves pref)
    {q : Str × Nat} (hdois : ':' ∉ q.1) (hnovo : q.1 ∉ chaves atual) :
    ∃ e2, aplicarPostingsPar e t (parDump q) = some e2 ∧
      e2.postings = pref ++ [(t, atual ++ [q])] ∧
      e2.documentos = e.documentos ∧
      e2.metadados_documentos = e.metadados_documentos ∧
      e2.estatisticas_globais = e.estatisticas_globais ∧
      e2.indice_carregado = e.indice_carregado := by
  rw [aplicarPostingsPar, quebrar_parDump hdois]
  dsimp only
  rw [strParaNat_natParaStr]
  dsimp only
  refine ⟨_, rfl, ?_, rfl, rfl, rfl, rfl⟩
  rw [hpost, procurar_append _ hpref, procurar, if_pos rfl]
  dsimp only [Option.getD]
  rw [gravar_nao_membro _ hnovo, gravar_no_meio atual _ [] hpref]

theorem aplicarPares_constroi {t : Str} :
    ∀ {pares : List (Str × Nat)} {e : Estado}
      {pref : List (Str × List (Str × Nat))} {atual : List (Str × Nat)},
      e.postings = pref ++ [(t, atual)] → t ∉ chaves pref →
      (∀ q ∈ pares, ':' ∉ q.1) →
      (∀ q ∈ pares, q.1 ∉ chaves atual) → (chaves pares).Nodup →
      ∃ e2, aplicarPares t e (pares.map parDump) = some e2 ∧
        e2.postings = pref ++ [(t, atual ++ pares)] ∧
        e2.documentos = e.documentos ∧
        e2.metadados_documentos = e.metadados_documentos ∧
        e2.estatisticas_globais = e.estatisticas_globais := by
  intro pares
  induction pares with
  | nil =>
    intro e pref atual hpost hpref _ _ _
    exact ⟨e, rfl, by rw [hpost, List.append_nil], rfl, rfl, rfl⟩
  | cons q resto ih =>
    intro e pref atual hpost hpref hdois hnovo hnodup
    obtain ⟨em, hem, hp2, hd2, hm2, he2, hi2⟩ :=
      aplicarPostingsPar_constroi hpost hpref (hdois q (List.mem_cons_self q resto))
        (hnovo q (List.mem_cons_self q resto))
    rw [List.map_cons, aplicarPares, hem]
    dsimp only
    rw [Trie.chaves_cons] at hnodup
    rcases List.nodup_cons.mp hnodup with ⟨hq1, hnodup2⟩
    have hnovo2 : ∀ p ∈ resto, p.1 ∉ chaves (atual ++ [q]) := by
      intro p hp hmem
      rw [Trie.chaves_append] at hmem
      rcases List.mem_append.mp hmem with h1 | h1
      · exact hnovo p (List.mem_cons_of_mem q hp) h1
      · rcases List.mem_singleton.mp h1 with he
        exact hq1 (he ▸ Trie.mem_chaves_de_mem hp)
    obtain ⟨e2, h1, h2, h3, h4, h5⟩ :=
      ih hp2 hpref (fun p hp => hdois p (List.mem_cons_of_mem q hp)) hnovo2 hnodup2
    refine ⟨e2, h1, ?_, h3.trans hd2, h4.trans hm2, h5.trans he2⟩
    rw [h2, List.append_assoc, List.singleton_append]

theorem juntarCom_cabeca {sep : Str} (x : Str) (xs : List Str) :
    ∃ t : Str, juntarCom sep (x :: xs) = x ++ t := by
  cases xs with
  | nil => exact ⟨[], by rw [juntarCom, List.append_nil]⟩
  | cons y ys =>
    exact ⟨sep ++ juntarCom sep (y :: ys), by rw [juntarCom, List.append_assoc]⟩

theorem aplicarPostingsLinha_constroi {e : Estado} {t : Str} {inner : List (Str × Nat)}
    (habs : t ∉ chaves e.postings) (hbar : '|' ∉ t)
    (hinner : inner ≠ []) (hnodup : (chaves inner).Nodup)
    (hdocs : ∀ q ∈ inner, ':' ∉ q.1 ∧ ';' ∉ q.1) :
    ∃ e2, aplicarPostingsLinha e
        (t ++ '|' :: juntarCom [';'] (inner.map parDump)) = some e2 ∧
      e2.postings = e.postings ++ [(t, inner)] ∧
      e2.documentos = e.documentos ∧
      e2.metadados_documentos = e.metadados_documentos ∧
      e2.estatisticas_globais = e.estatisticas_globais := by
  rw [aplicarPostingsLinha, quebrarUma_acha hbar]
  dsimp only
  cases inner with
  | nil => exact absurd rfl hinner
  | cons q0 rest =>
    have hserial : juntarCom [';'] ((q0 :: rest).map parDump) ≠ [] := by
      rw [List.map_cons]
      obtain ⟨tl, htl⟩ := juntarCom_cabeca (parDump q0) (rest.map parDump)
      rw [htl, parDump, List.append_assoc]
      intro hnil
      rcases List.append_eq_nil.mp hnil with ⟨_, h2⟩
      cases h2
    rw [if_neg hserial]
    have hsplit : quebrar ';' (juntarCom [';'] ((q0 :: rest).map parDump))
        = (q0 :: rest).map parDump := by
      apply quebrar_juntar (by simp)
      intro p hp
      rcases List.mem_map.mp hp with ⟨q, hq, rfl⟩
      intro hmem
      rw [parDump] at hmem
      rcases List.mem_append.mp hmem with h1 | h1
      · exact (hdocs q hq).2 h1
      · rcases List.mem_cons.mp h1 with h2 | h2
        · exact absurd h2 (by decide)
        · exact absurd (natParaStr_digitos ';' h2) (by decide)
    rw [hsplit, List.map_cons, aplicarPares,
      aplicarPostingsPar, quebrar_parDump (hdocs q0 (List.mem_cons_self q0 rest)).1]
    dsimp only
    rw [strParaNat_natParaStr]
    dsimp only
    have hpostings : gravar e.postings t
        (gravar ((procurar e.postings t).getD []) q0.1 q0.2)
        = e.postings ++ [(t, [q0])] := by
      rw [procurar_nao_membro habs]
      dsimp only [Option.getD]
      rw [gravar_nao_membro _ habs]
      rfl
    rw [hpostings]
    rw [Trie.chaves_cons] at hnodup
    rcases List.nodup_cons.mp hnodup with ⟨hq1, hnodup2⟩
    have hnovo : ∀ p ∈ rest, p.1 ∉ chaves ([q0] : List (Str × Nat)) := by
      intro p hp hmem
      rcases List.mem_singleton.mp hmem with he
      exact hq1 (he ▸ Trie.mem_chaves_de_mem hp)
    obtain ⟨e2, h1, h2, h3, h4, h5⟩ := aplicarPares_constroi
      (show (({ e with
          trie := Trie.inserir e.trie t q0.1,
          postings := e.postings ++ [(t, [q0])] } : Estado)).postings
        = e.postings ++ [(t, [q0])] from rfl)
      habs (fun p hp => (hdocs p (List.mem_cons_of_mem q0 hp)).1) hnovo hnodup2
    refine ⟨e2, h1, ?_, h3, h4, h5⟩
    rw [h2, List.singleton_append]

theorem processar_postings :
    ∀ (L : List (Str × List (Str × Nat))) (e : Estado) (docsL : List Str),
      (∀ par ∈ L, par.1.head? ≠ some '#' ∧ '|' ∉ par.1 ∧ par.2 ≠ [] ∧
        (chaves par.2).Nodup ∧ ∀ q ∈ par.2, ':' ∉ q.1 ∧ ';' ∉ q.1) →
      (∀ par ∈ L, par.1 ∉ chaves e.postings) →
      (chaves L).Nodup →
      ∃ e2, processarLinhas
          (L.map (fun par => par.1 ++ '|' :: juntarCom [';'] (par.2.map parDump)))
          e (some Modo.posts) docsL = (true, e2, docsL) ∧
        e2.postings = e.postings ++ L ∧
        e2.documentos = e.documentos ∧
        e2.metadados_documentos = e.metadados_documentos ∧
        e2.estatisticas_globais = e.estatisticas_globais := by
  intro L
  induction L with
  | nil =>
    intro e docsL _ _ _
    exact ⟨e, rfl, by rw [List.append_nil], rfl, rfl, rfl⟩
  | cons par L2 ih =>
    rcases par with ⟨t, inner⟩
    intro e docsL hbons hfresco hnodup
    obtain ⟨h0, h1, h2, h3, h4⟩ := hbons (t, inner) (List.mem_cons_self _ _)
    have hlc : ¬(t ++ '|' :: juntarCom [';'] (inner.map parDump) = [] ∨
        (t ++ '|' :: juntarCom [';'] (inner.map parDump)).head? = some '#') := by
      intro hor
      rcases hor with hnil | hhash
      · rcases List.append_eq_nil.mp hnil with ⟨_, hx⟩
        cases hx
      · cases t with
        | nil =>
          rw [List.nil_append] at hhash
          exact absurd (Option.some_inj.mp hhash) (by decide)
        | cons c r =>
          rw [List.cons_append] at hhash
          exact h0 hhash
    rw [List.map_cons, processarLinhas.eq_def]
    dsimp only
    rw [if_neg hlc]
    obtain ⟨em, hem, hp2, hd2, hm2, he2⟩ := aplicarPostingsLinha_constroi
      (hfresco (t, inner) (List.mem_cons_self _ _)) h1 h2 h3 h4
    rw [hem]
    dsimp only
    rw [Trie.chaves_cons] at hnodup
    rcases List.nodup_cons.mp hnodup with ⟨ht, hnodup2⟩
    have hfresco2 : ∀ p ∈ L2, p.1 ∉ chaves em.postings := by
      intro p hp hmem
      rw [hp2, Trie.chaves_append] at hmem
      rcases List.mem_append.mp hmem with hm1 | hm1
      · exact hfresco p (List.mem_cons_of_mem _ hp) hm1
      · rcases List.mem_singleton.mp hm1 with he
        exact ht (he ▸ Trie.mem_chaves_de_mem hp)
    obtain ⟨e2, g1, g2, g3, g4, g5⟩ := ih em docsL
      (fun p hp => hbons p (List.mem_cons_of_mem _ hp)) hfresco2 hnodup2
    refine ⟨e2, g1, ?_, g3.trans hd2, g4.trans hm2, g5.trans he2⟩
    rw [g2, hp2, List.append_assoc, List.singleton_append]

theorem procurar_map_chave {α : Type} (f : Str → α) :
    ∀ (ks : List Str) (t : Str),
      procurar (ks.map (fun k => (k, f k))) t
        = if t ∈ ks then some (f t) else none := by
  intro ks
  induction ks with
  | nil => intro t; simp [procurar]
  | cons k rest ih =>
    intro t
    rw [List.map_cons, procurar]
    by_cases hk : k = t
    · rw [if_pos hk, if_pos (hk ▸ List.mem_cons_self k rest), hk]
    · rw [if_neg hk, ih t]
      by_cases hm : t ∈ rest
      · rw [if_pos hm, if_pos (List.mem_cons_of_mem k hm)]
      · rw [if_neg hm, if_neg (fun hh => by
          rcases List.mem_cons.mp hh with hh1 | hh1
          · exact hk hh1.symm
          · exact hm hh1)]

theorem chaves_fold_disco (disco : Str → Option Str) :
    ∀ (docsL : List Str) (d : List (Str × Str)),
      (∀ c ∈ docsL, disco c ≠ none) → (∀ c ∈ docsL, c ∉ chaves d) → docsL.Nodup →
      chaves (docsL.foldl (fun d2 caminho =>
        match disco caminho with
        | some texto => gravar d2 caminho texto
        | none => d2) d) = chaves d ++ docsL := by
  intro docsL
  induction docsL with
  | nil =>
    intro d _ _ _
    rw [List.foldl_nil, List.append_nil]
  | cons c rest ih =>
    intro d hdisco hfresco hnodup
    rw [List.foldl_cons]
    cases hd : disco c with
    | none => exact absurd hd (hdisco c (List.mem_cons_self c rest))
    | some texto =>
      dsimp only
      rw [gravar_nao_membro texto (hfresco c (List.mem_cons_self c rest))]
      rcases List.nodup_cons.mp hnodup with ⟨hc, hnodup2⟩
      have hfresco2 : ∀ c2 ∈ rest, c2 ∉ chaves (d ++ [(c, texto)]) := by
        intro c2 hc2 hmem
        rw [Trie.chaves_append] at hmem
        rcases List.mem_append.mp hmem with hm1 | hm1
        · exact hfresco c2 (List.mem_cons_of_mem c hc2) hm1
        · rcases List.mem_singleton.mp hm1 with rfl
          exact hc hc2
      rw [ih (d ++ [(c, texto)]) (fun c2 h => hdisco c2 (List.mem_cons_of_mem c h))
        hfresco2 hnodup2, Trie.chaves_append, List.append_assoc]
      rfl

theorem dumpObjNat_forma (l : List (Str × Nat)) :
    dumpObjNat l = '\x7b' :: juntarItens itemNatDump '\x7d' l := rfl

theorem dumpMeta_forma (l : List (Str × Metadados)) :
    dumpMeta l = '\x7b' :: juntarItens itemMetaDump '\x7d' l := rfl

theorem dumpLista_forma (l : List Str) :
    dumpLista l = '[' :: juntarItens dumpStr ']' l := rfl

theorem linha_conteudo {c : Char} {t : Str} (hc : c ≠ '#') :
    ¬(c :: t = [] ∨ (c :: t).head? = some '#') := by
  intro hor
  rcases hor with h | h
  · cases h
  · exact hc (Option.some_inj.mp h)

/-- Walking the six header/JSON lines of a saved file: the loop arrives at
the POSTINGS section with the statistics and metadata loaded and the
document list read. -/
theorem processar_prefixo (s e0 : Estado) :
    processarLinhas (linhasSalvar s) e0 none []
      = processarLinhas ((ordenar (chaves s.postings)).map (linhaPostings s))
          { e0 with
            estatisticas_globais := s.estatisticas_globais,
            metadados_documentos := s.metadados_documentos }
          (some Modo.posts) (chaves s.documentos) := by
  have hc2 : ¬(dumpObjNat s.estatisticas_globais = [] ∨
      (dumpObjNat s.estatisticas_globais).head? = some '#') := by
    rw [dumpObjNat_forma]
    exact linha_conteudo (by decide)
  have hc4 : ¬(dumpMeta s.metadados_documentos = [] ∨
      (dumpMeta s.metadados_documentos).head? = some '#') := by
    rw [dumpMeta_forma]
    exact linha_conteudo (by decide)
  have hc6 : ¬(dumpLista (chaves s.documentos) = [] ∨
      (dumpLista (chaves s.documentos)).head? = some '#') := by
    rw [dumpLista_forma]
    exact linha_conteudo (by decide)
  conv_lhs => rw [linhasSalvar]; simp only [List.cons_append, List.nil_append]
  conv_lhs =>
    rw [processarLinhas.eq_def]
    dsimp only
    rw [if_pos (show str "# ESTATISTICAS_GLOBAIS" = [] ∨ List.head? (str "# ESTATISTICAS_GLOBAIS") = some '#' from Or.inr rfl)]
    dsimp only
    rw [if_pos rfl]
  conv_lhs =>
    rw [processarLinhas.eq_def]
    dsimp only
    rw [if_neg hc2]
    dsimp only
    rw [parseObjNat_dump]
    dsimp only
  conv_lhs =>
    rw [processarLinhas.eq_def]
    dsimp only
    rw [if_pos (show str "# METADADOS_DOCUMENTOS" = [] ∨ List.head? (str "# METADADOS_DOCUMENTOS") = some '#' from Or.inr rfl)]
    dsimp only
    rw [if_neg (by decide), if_pos rfl]
  conv_lhs =>
    rw [processarLinhas.eq_def]
    dsimp only
    rw [if_neg hc4]
    dsimp only
    rw [parseMeta_dump]
    dsimp only
  conv_lhs =>
    rw [processarLinhas.eq_def]
    dsimp only
    rw [if_pos (show str "# DOCUMENTOS" = [] ∨ List.head? (str "# DOCUMENTOS") = some '#' from Or.inr rfl)]
    dsimp only
    rw [if_neg (by decide), if_neg (by decide), if_pos rfl]
  conv_lhs =>
    rw [processarLinhas.eq_def]
    dsimp only
    rw [if_neg hc6]
    dsimp only
    rw [parseLista_dump]
    dsimp only
  conv_lhs =>
    rw [processarLinhas.eq_def]
    dsimp only
    rw [if_pos (show str "# POSTINGS" = [] ∨ List.head? (str "# POSTINGS") = some '#' from Or.inr rfl)]
    dsimp only
    rw [if_neg (by decide), if_neg (by decide), if_neg (by decide), if_pos rfl]

theorem processar_linhasSalvar (s : Estado) (hbf : BemFormado s) (e0 : Estado)
    (hp0 : e0.postings = []) :
    ∃ e1, processarLinhas (linhasSalvar s) e0 none []
        = (true, e1, chaves s.documentos) ∧
      e1.postings = (ordenar (chaves s.postings)).map
        (fun t => (t, ordenarPares ((procurar s.postings t).getD []))) ∧
      e1.documentos = e0.documentos ∧
      e1.metadados_documentos = s.metadados_documentos := by
  obtain ⟨hknd, hdnd, hpost, hdocnl, hmetanl, hestnl⟩ := hbf
  have hmapa : (ordenar (chaves s.postings)).map (linhaPostings s)
      = ((ordenar (chaves s.postings)).map
          (fun t => (t, ordenarPares ((procurar s.postings t).getD [])))).map
        (fun par => par.1 ++ '|' :: juntarCom [';'] (par.2.map parDump)) := by
    rw [List.map_map]
    rfl
  have hbons : ∀ par ∈ (ordenar (chaves s.postings)).map
      (fun t => (t, ordenarPares ((procurar s.postings t).getD []))),
      par.1.head? ≠ some '#' ∧ '|' ∉ par.1 ∧ par.2 ≠ [] ∧
        (chaves par.2).Nodup ∧ ∀ q ∈ par.2, ':' ∉ q.1 ∧ ';' ∉ q.1 := by
    intro par hpar
    rcases List.mem_map.mp hpar with ⟨t, ht, rfl⟩
    have htc : t ∈ chaves s.postings := mem_ordenar.mp ht
    rcases membro_procurar htc with ⟨inner, hinner⟩
    have hmem : (t, inner) ∈ s.postings := procurar_eq_some_mem hinner
    obtain ⟨f0, f1, f2, f3, f4, f5⟩ := hpost (t, inner) hmem
    refine ⟨f0, f1, ?_, ?_, ?_⟩
    · dsimp only
      rw [hinner]
      dsimp only [Option.getD]
      intro hnil
      rw [ordenarPares] at hnil
      have hlen := (List.perm_insertionSort
        (fun a b => lexPar a b = true) inner).length_eq
      rw [hnil] at hlen
      exact f3 (List.length_eq_zero.mp hlen.symm)
    · dsimp only
      rw [hinner]
      dsimp only [Option.getD]
      have hperm := (List.perm_insertionSort
        (fun a b => lexPar a b = true) inner).map Prod.fst
      exact (List.Perm.nodup_iff hperm).mpr f4
    · dsimp only
      rw [hinner]
      dsimp only [Option.getD]
      intro q hq
      have hf := f5 q (mem_ordenarPares.mp hq)
      exact ⟨hf.1, hf.2.1⟩
  have hnodupL : (chaves ((ordenar (chaves s.postings)).map
      (fun t => (t, ordenarPares ((procurar s.postings t).getD []))))).Nodup := by
    have hch : chaves ((ordenar (chaves s.postings)).map
        (fun t => (t, ordenarPares ((procurar s.postings t).getD []))))
        = ordenar (chaves s.postings) := by
      show List.map Prod.fst _ = _
      rw [List.map_map]
      exact List.map_id _
    rw [hch]
    exact (List.perm_insertionSort
      (fun a b => lexStr a b = true) (chaves s.postings)).nodup_iff.mpr hknd
  obtain ⟨e2, g1, g2, g3, g4, g5⟩ := processar_postings
    ((ordenar (chaves s.postings)).map
      (fun t => (t, ordenarPares ((procurar s.postings t).getD []))))
    { e0 with
      estatisticas_globais := s.estatisticas_globais,
      metadados_documentos := s.metadados_documentos }
    (chaves s.documentos) hbons
    (fun par hpar hmem => by
      rw [show ({ e0 with
          estatisticas_globais := s.estatisticas_globais,
          metadados_documentos := s.metadados_documentos } : Estado).postings
        = e0.postings from rfl, hp0] at hmem
      simp [chaves] at hmem)
    hnodupL
  refine ⟨e2, ?_, ?_, ?_, ?_⟩
  · rw [processar_prefixo s e0, hmapa]
    exact g1
  · rw [g2, show ({ e0 with
        estatisticas_globais := s.estatisticas_globais,
        metadados_documentos := s.metadados_documentos } : Estado).postings
      = e0.postings from rfl, hp0, List.nil_append]
  · rw [g3]
  · rw [g4]

end Indexador

/-- C6: saving and reloading a well-formed ingestion state reconstructs
the postings (as term → document → tf mappings), the document-id list,
and the per-document metadata, provided every document is still readable
from disk; raw document text is re-read from the `disco` oracle. -/
theorem c6_salvar_carregar (s : Indexador.Estado) (disco : Str → Option Str)
    (prior : Indexador.Estado) (hbf : Indexador.BemFormado s)
    (hdisco : ∀ d ∈ chaves s.documentos, disco d ≠ none) :
    (Indexador.carregar_indice (Indexador.salvar_indice s) disco prior).1 = true ∧
    (∀ t, Option.map (fun l : List (Str × Nat) => l.toFinset)
        (procurar (Indexador.carregar_indice (Indexador.salvar_indice s)
          disco prior).2.postings t)
      = Option.map (fun l : List (Str × Nat) => l.toFinset) (procurar s.postings t)) ∧
    chaves (Indexador.carregar_indice (Indexador.salvar_indice s)
        disco prior).2.documentos
      = chaves s.documentos ∧
    (Indexador.carregar_indice (Indexador.salvar_indice s)
        disco prior).2.metadados_documentos
      = s.metadados_documentos := by
  obtain ⟨e1, h1, h2, h3, h4⟩ := Indexador.processar_linhasSalvar s hbf
    (Indexador.resetEstado prior) rfl
  have hfile : Indexador.linhasDe (Indexador.salvar_indice s)
      = Indexador.linhasSalvar s := by
    rw [Indexador.salvar_indice]
    exact Indexador.linhasDe_arquivoDe (Indexador.linhasSalvar_sem_nl hbf)
  rw [Indexador.carregar_indice, hfile, h1]
  dsimp only
  refine ⟨rfl, ?_, ?_, h4⟩
  · intro t
    rw [h2, Indexador.procurar_map_chave
      (fun t => Indexador.ordenarPares ((procurar s.postings t).getD []))
      (Indexador.ordenar (chaves s.postings)) t]
    by_cases hm : t ∈ chaves s.postings
    · rw [if_pos (Indexador.mem_ordenar.mpr hm)]
      rcases Indexador.membro_procurar hm with ⟨inner, hinner⟩
      rw [hinner]
      simp only [Option.getD_some, Option.map_some']
      exact congrArg some (List.toFinset_eq_of_perm _ _
        (List.perm_insertionSort (fun a b => Indexador.lexPar a b = true) inner))
    · rw [if_neg (fun hh => hm (Indexador.mem_ordenar.mp hh)),
        procurar_nao_membro hm]
  · rw [h3, show (Indexador.resetEstado prior).documentos = [] from rfl,
      Indexador.chaves_fold_disco disco (chaves s.documentos) [] hdisco
        (fun c hc hmem => by simp [chaves] at hmem) hbf.2.1]
    rfl

theorem c6_salvar_carregar_witness :
    Indexador.BemFormado
      { Indexador.estadoInicial with
        postings := [(str "cat", [(str "d1", 2)])],
        documentos := [(str "d1", str "cat cat")],
        metadados_documentos := [(str "d1", ⟨7, 2, 1⟩)] } ∧
    (∀ d ∈ chaves ({ Indexador.estadoInicial with
        postings := [(str "cat", [(str "d1", 2)])],
        documentos := [(str "d1", str "cat cat")],
        metadados_documentos := [(str "d1", ⟨7, 2, 1⟩)] } : Indexador.Estado).documentos,
      (fun _ : Str => some (str "cat cat")) d ≠ none) ∧
    ((Indexador.carregar_indice (Indexador.salvar_indice
        { Indexador.estadoInicial with
          postings := [(str "cat", [(str "d1", 2)])],
          documentos := [(str "d1", str "cat cat")],
          metadados_documentos := [(str "d1", ⟨7, 2, 1⟩)] })
        (fun _ : Str => some (str "cat cat")) Indexador.estadoInicial).1 = true ∧
    (∀ t, Option.map (fun l : List (Str × Nat) => l.toFinset)
        (procurar (Indexador.carregar_indice (Indexador.salvar_indice
          { Indexador.estadoInicial with
            postings := [(str "cat", [(str "d1", 2)])],
            documentos := [(str "d1", str "cat cat")],
            metadados_documentos := [(str "d1", ⟨7, 2, 1⟩)] })
          (fun _ : Str => some (str "cat cat")) Indexador.estadoInicial).2.postings t)
      = Option.map (fun l : List (Str × Nat) => l.toFinset)
          (procurar ({ Indexador.estadoInicial with
            postings := [(str "cat", [(str "d1", 2)])],
            documentos := [(str "d1", str "cat cat")],
            metadados_documentos := [(str "d1", ⟨7, 2, 1⟩)] } :
              Indexador.Estado).postings t)) ∧
    chaves (Indexador.carregar_indice (Indexador.salvar_indice
        { Indexador.estadoInicial with
          postings := [(str "cat", [(str "d1", 2)])],
          documentos := [(str "d1", str "cat cat")],
          metadados_documentos := [(str "d1", ⟨7, 2, 1⟩)] })
        (fun _ : Str => some (str "cat cat")) Indexador.estadoInicial).2.documentos
      = chaves ({ Indexador.estadoInicial with
          postings := [(str "cat", [(str "d1", 2)])],
          documentos := [(str "d1", str "cat cat")],
          metadados_documentos := [(str "d1", ⟨7, 2, 1⟩)] } :
            Indexador.Estado).documentos ∧
    (Indexador.carregar_indice (Indexador.salvar_indice
        { Indexador.estadoInicial with
          postings := [(str "cat", [(str "d1", 2)])],
          documentos := [(str "d1", str "cat cat")],
          metadados_documentos := [(str "d1", ⟨7, 2, 1⟩)] })
        (fun _ : Str => some (str "cat cat")) Indexador.estadoInicial).2.metadados_documentos
      = ({ Indexador.estadoInicial with
          postings := [(str "cat", [(str "d1", 2)])],
          documentos := [(str "d1", str "cat cat")],
          metadados_documentos := [(str "d1", ⟨7, 2, 1⟩)] } :
            Indexador.Estado).metadados_documentos) :=
  ⟨by decide, by decide,
    c6_salvar_carregar
      { Indexador.estadoInicial with
        postings := [(str "cat", [(str "d1", 2)])],
        documentos := [(str "d1", str "cat cat")],
        metadados_documentos := [(str "d1", ⟨7, 2, 1⟩)] }
      (fun _ : Str => some (str "cat cat")) Indexador.estadoInicial
      (by decide) (by decide)⟩
